import Mathlib

/-!
Shallow embedding of the CPU scheduling simulator
(src/cpu_scheduler_simulation_v2.py) and proofs about its
scheduling policies and metric calculators.

Conventions of the embedding:
* Python tuples `(pid, arrival, burst, priority)` become the `Process`
  structure; the 5-tuples `(pid, arrival, remaining, original_burst, priority)`
  used by the preemptive policies become the `Ent` structure.
* Timeline segments `(pid, start, end)` are triples `String × Nat × Nat`.
* Python `list.sort(key=...)` and `sorted(..., key=...)` are stable
  ascending sorts; they are modelled by `List.insertionSort` with the
  corresponding (total, transitive) relation, which places an element
  after all earlier elements with an equal key, exactly like a stable sort.
* Python dicts are modelled by association lists in insertion order,
  with `dictUpsert` reproducing `d[k] = v` (update in place, else append).
* Code that can raise (`min()` of an empty sequence, `schedule[-1]`,
  `dict[key]` lookups) is modelled in the `Option` monad, `none`
  standing for the raised runtime error.
* Python `/` is true division and is modelled in `ℚ`; subtractions that
  can go negative in Python are computed in `ℤ`.
-/

structure Process where
  pid : String
  arrival : Nat
  burst : Nat
  priority : Nat
deriving DecidableEq, Repr

/-- Timeline segment: process id, start time, end time. -/
abbrev Seg : Type := String × Nat × Nat

abbrev Schedule : Type := List Seg

def segDur (s : Seg) : Nat := s.2.2 - s.2.1

def totalDur (sched : Schedule) : Nat := (sched.map segDur).sum

/-- Sum of the durations of the segments attributed to process id `pid`. -/
def sumDurFor (pid : String) (sched : Schedule) : Nat :=
  ((sched.filter (fun s => s.1 = pid)).map segDur).sum

/-- Sum of the bursts of the processes with id `pid`. -/
def burstSumFor (pid : String) (ps : List Process) : Nat :=
  ((ps.filter (fun p => p.pid = pid)).map (·.burst)).sum

/-- Sort relation for `sorted(processes, key=lambda x: x[1])`. -/
def arrivalLE (a b : Process) : Prop := a.arrival ≤ b.arrival

instance : DecidableRel arrivalLE := fun a b => Nat.decLe a.arrival b.arrival
instance : IsTotal Process arrivalLE := ⟨fun a b => Nat.le_total a.arrival b.arrival⟩
instance : IsTrans Process arrivalLE := ⟨fun _ _ _ h1 h2 => Nat.le_trans h1 h2⟩

/-- Sort relation for `ready_queue.sort(key=lambda x: x[2])` in SJN. -/
def burstLE (a b : Process) : Prop := a.burst ≤ b.burst

instance : DecidableRel burstLE := fun a b => Nat.decLe a.burst b.burst
instance : IsTotal Process burstLE := ⟨fun a b => Nat.le_total a.burst b.burst⟩
instance : IsTrans Process burstLE := ⟨fun _ _ _ h1 h2 => Nat.le_trans h1 h2⟩

/-- Sort relation for `sorted(processes, key=lambda x: (x[3], x[1]))`. -/
def prioArrLE (a b : Process) : Prop :=
  a.priority < b.priority ∨ (a.priority = b.priority ∧ a.arrival ≤ b.arrival)

instance : DecidableRel prioArrLE := fun _ _ => instDecidableOr
instance : IsTotal Process prioArrLE :=
  ⟨fun a b => by unfold prioArrLE; omega⟩
instance : IsTrans Process prioArrLE :=
  ⟨fun _ _ _ h1 h2 => by unfold prioArrLE at *; omega⟩

/-- Embeds `fcfs_scheduling`'s dispatch loop (also the identical loop body of
`priority_scheduling`): each process of `l` in order runs to completion
starting at `max current_time arrival`. -/
def fcfsAux : List Process → Nat → Schedule
  | [], _ => []
  | p :: rest, t =>
    (p.pid, max t p.arrival, max t p.arrival + p.burst) ::
      fcfsAux rest (max t p.arrival + p.burst)

/-- Embeds `fcfs_scheduling` (source lines 11-21). -/
def fcfs_scheduling (ps : List Process) : Schedule :=
  fcfsAux (List.insertionSort arrivalLE ps) 0

/-- Embeds `priority_scheduling` (source lines 101-111): same loop as FCFS on
the list sorted by `(priority, arrival)`. -/
def priority_scheduling (ps : List Process) : Schedule :=
  fcfsAux (List.insertionSort prioArrLE ps) 0

theorem takeWhile_dropWhile_length {α : Type} (p : α → Bool) (l : List α) :
    (l.takeWhile p).length + (l.dropWhile p).length = l.length := by
  induction l with
  | nil => simp
  | cons a l ih =>
    by_cases h : p a <;> simp [List.takeWhile, List.dropWhile, h] <;> omega

/-- Embeds the `while processes or ready_queue:` loop of `sjn_scheduling`
(source lines 29-40).  One call is one loop iteration: first the inner
`while` moves the already-arrived prefix of `pending` into the ready queue,
then either the ready queue is sorted by burst and its head dispatched, or
(no ready process) `current_time` jumps to the arrival of the head of the
pending list. -/
def sjnAux (pending ready : List Process) (t : Nat) : Schedule :=
  let newly := pending.takeWhile (fun p => p.arrival ≤ t)
  let rest := pending.dropWhile (fun p => p.arrival ≤ t)
  match _h : List.insertionSort burstLE (ready ++ newly) with
  | p :: rq => (p.pid, t, t + p.burst) :: sjnAux rest rq (t + p.burst)
  | [] =>
    match _h2 : rest with
    | r :: _ => sjnAux rest ready r.arrival
    | [] => []
termination_by
  (pending.length + ready.length, match pending with | [] => 0 | p :: _ => p.arrival - t)
decreasing_by
  · apply Prod.Lex.left
    have h1 := takeWhile_dropWhile_length (fun p => decide (p.arrival ≤ t)) pending
    have h2 : (List.insertionSort burstLE
        (ready ++ pending.takeWhile (fun p => decide (p.arrival ≤ t)))).length =
        ready.length + (pending.takeWhile (fun p => decide (p.arrival ≤ t))).length := by
      rw [(List.perm_insertionSort burstLE _).length_eq]; simp
    rw [_h] at h2
    simp only [List.length_cons] at h2
    omega
  · have hnil : ready ++ pending.takeWhile (fun p => decide (p.arrival ≤ t)) = [] := by
      have hp := List.perm_insertionSort burstLE
        (ready ++ pending.takeWhile (fun p => decide (p.arrival ≤ t)))
      rw [_h] at hp
      exact hp.symm.eq_nil
    have hready : ready = [] := (List.append_eq_nil.mp hnil).1
    have htw : pending.takeWhile (fun p => decide (p.arrival ≤ t)) = [] :=
      (List.append_eq_nil.mp hnil).2
    have hrest : pending.dropWhile (fun p => decide (p.arrival ≤ t)) = pending := by
      have := List.takeWhile_append_dropWhile (fun p => decide (p.arrival ≤ t)) pending
      rw [htw] at this
      simpa using this
    obtain ⟨tl, hpend⟩ : ∃ tl, pending = r :: tl := ⟨_, by rw [← hrest]; exact _h2⟩
    have hq : ¬ (r.arrival ≤ t) := by
      intro hc
      rw [hpend] at htw
      simp [List.takeWhile, hc] at htw
    apply Prod.Lex.right'
    · have h1 := takeWhile_dropWhile_length (fun p => decide (p.arrival ≤ t)) pending
      omega
    · rw [hrest, hpend]
      simp only
      omega

/-- Embeds `sjn_scheduling` (source lines 23-41). -/
def sjn_scheduling (ps : List Process) : Schedule :=
  sjnAux ps [] 0

/-- Entry of the preemptive simulations: the Python 5-tuple
`(pid, arrival, remaining, original_burst, priority)` built on source
lines 45 and 115. -/
structure Ent where
  pid : String
  arrival : Nat
  remaining : Nat
  orig : Nat
  priority : Nat
deriving DecidableEq, Repr

/-- Initial entry list `[(pid, arrival, burst, burst, priority) ...]`. -/
def entsOf (ps : List Process) : List Ent :=
  ps.map (fun p => ⟨p.pid, p.arrival, p.burst, p.burst, p.priority⟩)

/-- Ranking key of SJN-with-preemption: the remaining time (`x[2]`). -/
def keyRem (e : Ent) : Nat := e.remaining

/-- Ranking key of preemptive priority scheduling: the priority (`x[4]`). -/
def keyPrio (e : Ent) : Nat := e.priority

/-- Sort relation used for `ready_queue.sort(key=...)` in the preemptive
policies, parametric in the ranking key. -/
def entLE (key : Ent → Nat) (a b : Ent) : Prop := key a ≤ key b

instance (key : Ent → Nat) : DecidableRel (entLE key) :=
  fun a b => Nat.decLe (key a) (key b)

def remSum (l : List Ent) : Nat := (l.map (·.remaining)).sum

def entRemOpt (o : Option Ent) : Nat :=
  match o with
  | none => 0
  | some e => e.remaining

def actCount (o : Option Ent) : Nat :=
  match o with
  | none => 0
  | some _ => 1

def headGap (procs : List Ent) (t : Nat) : Nat :=
  match procs with
  | [] => 0
  | p :: _ => p.arrival - t

/-- Models `min((p[1] for p in processes if p[1] > current_time), default=inf)`
followed by `max(1, next_arrival - current_time)`.  When no later arrival
exists the Python value is `max(1, inf) = inf`; since this bound is only used
inside `min(1, remaining, bound)` and the bound is at least 1 in both cases,
using 1 for the infinite case leaves the minimum unchanged. -/
def nextArrCap (rest : List Ent) (t : Nat) : Nat :=
  match ((rest.filter (fun p => t < p.arrival)).map (·.arrival)).min? with
  | none => 1
  | some m => max 1 (m - t)

/-- Models `time_slice = min(1, remaining, max(1, next_arrival - current_time))`. -/
def sliceOf (cur : Ent) (rest : List Ent) (t : Nat) : Nat :=
  min (min 1 cur.remaining) (nextArrCap rest t)

theorem one_le_nextArrCap (rest : List Ent) (t : Nat) : 1 ≤ nextArrCap rest t := by
  unfold nextArrCap
  generalize ((rest.filter (fun p => t < p.arrival)).map (·.arrival)).min? = o
  rcases o with _ | m
  · exact Nat.le_refl 1
  · exact Nat.le_max_left 1 (m - t)

theorem sliceOf_eq (cur : Ent) (rest : List Ent) (t : Nat) :
    sliceOf cur rest t = if cur.remaining = 0 then 0 else 1 := by
  have h1 := one_le_nextArrCap rest t
  unfold sliceOf
  rcases Nat.eq_zero_or_pos cur.remaining with h | h
  · simp [h]
  · have : ¬ cur.remaining = 0 := by omega
    simp [this]
    omega

/-- Models lines 53-55 of the source: when there is no active process and the
ready queue is non-empty, sort the ready queue by the ranking key and pop its
head as the new active process; otherwise keep the active process and the
(unsorted) ready queue. -/
def pickActive (key : Ent → Nat) (active : Option Ent) (rq0 : List Ent) :
    Option Ent × List Ent :=
  match active with
  | some e => (some e, rq0)
  | none =>
    match List.insertionSort (entLE key) rq0 with
    | [] => (none, [])
    | e :: es => (some e, es)

theorem pickActive_none {key : Ent → Nat} {active : Option Ent} {rq0 x : List Ent}
    (h : pickActive key active rq0 = (none, x)) : active = none ∧ rq0 = [] := by
  rcases active with _ | e
  · constructor
    · rfl
    · unfold pickActive at h
      rcases hs : List.insertionSort (entLE key) rq0 with _ | ⟨e, es⟩
      · have hp := List.perm_insertionSort (entLE key) rq0
        rw [hs] at hp
        exact hp.symm.eq_nil
      · rw [hs] at h
        simp at h
  · unfold pickActive at h
    simp at h

theorem pickActive_spec {key : Ent → Nat} {active : Option Ent} {rq0 : List Ent}
    {cur : Ent} {rdy : List Ent}
    (h : pickActive key active rq0 = (some cur, rdy)) :
    remSum rdy + cur.remaining = remSum rq0 + entRemOpt active
    ∧ rdy.length + 1 = rq0.length + actCount active := by
  rcases active with _ | e
  · unfold pickActive at h
    rcases hs : List.insertionSort (entLE key) rq0 with _ | ⟨e, es⟩
    · rw [hs] at h; simp at h
    · rw [hs] at h
      have he : e = cur := congrArg (fun x => (x.1.getD e)) h
      have hr : es = rdy := congrArg Prod.snd h
      have hp := List.perm_insertionSort (entLE key) rq0
      rw [hs, he, hr] at hp
      have h1 := (hp.map (fun x => x.remaining)).sum_eq
      have h2 := hp.length_eq
      simp only [List.map_cons, List.sum_cons, List.length_cons] at h1 h2
      simp only [remSum, entRemOpt, actCount]
      omega
  · unfold pickActive at h
    have he : e = cur := congrArg (fun x => (x.1.getD e)) h
    have hr : rq0 = rdy := congrArg Prod.snd h
    subst he
    subst hr
    simp [entRemOpt, actCount]

theorem tw_dw_arr_rem (t : Nat) (l : List Ent) :
    remSum (l.takeWhile (fun p => p.arrival ≤ t))
      + remSum (l.dropWhile (fun p => p.arrival ≤ t)) = remSum l := by
  induction l with
  | nil => simp [remSum]
  | cons a l ih =>
    by_cases h : a.arrival ≤ t
    · simp [remSum, List.takeWhile, List.dropWhile, h] at ih ⊢
      omega
    · simp [remSum, List.takeWhile, List.dropWhile, h] at ih ⊢

theorem filter_arr_split_rem (t2 : Nat) (l : List Ent) :
    remSum (l.filter (fun p => p.arrival ≤ t2))
      + remSum (l.filter (fun p => ¬ p.arrival ≤ t2)) = remSum l := by
  induction l with
  | nil => simp [remSum]
  | cons a l ih =>
    by_cases h : a.arrival ≤ t2
    · have h2 : ¬ t2 < a.arrival := by omega
      simp [remSum, h, h2] at ih ⊢
      omega
    · have h2 : t2 < a.arrival := by omega
      simp [remSum, h, h2] at ih ⊢
      omega

theorem filter_arr_split_len (t2 : Nat) (l : List Ent) :
    (l.filter (fun p => p.arrival ≤ t2)).length
      + (l.filter (fun p => ¬ p.arrival ≤ t2)).length = l.length := by
  induction l with
  | nil => simp
  | cons a l ih =>
    by_cases h : a.arrival ≤ t2
    · have h2 : ¬ t2 < a.arrival := by omega
      simp [h, h2] at ih ⊢
      omega
    · have h2 : t2 < a.arrival := by omega
      simp [h, h2] at ih ⊢
      omega

theorem lex3 {a1 a2 a3 b1 b2 b3 : Nat}
    (h : a1 < b1 ∨ (a1 = b1 ∧ (a2 < b2 ∨ (a2 = b2 ∧ a3 < b3)))) :
    Prod.Lex (· < ·) (Prod.Lex (· < ·) (· < ·)) (a1, a2, a3) (b1, b2, b3) := by
  rcases h with h | ⟨h1, h | ⟨h2, h3⟩⟩
  · exact Prod.Lex.left _ _ h
  · subst h1; exact Prod.Lex.right _ (Prod.Lex.left _ _ h)
  · subst h1; subst h2; exact Prod.Lex.right _ (Prod.Lex.right _ h3)

theorem remSum_nil : remSum [] = 0 := rfl

theorem remSum_cons (x : Ent) (l : List Ent) :
    remSum (x :: l) = x.remaining + remSum l := by
  simp [remSum]

theorem remSum_append (l1 l2 : List Ent) :
    remSum (l1 ++ l2) = remSum l1 + remSum l2 := by
  simp [remSum]

theorem entRemOpt_none : entRemOpt none = 0 := rfl

theorem entRemOpt_some (e : Ent) : entRemOpt (some e) = e.remaining := rfl

theorem actCount_none : actCount none = 0 := rfl

theorem actCount_some (e : Ent) : actCount (some e) = 1 := rfl

theorem headGap_cons (p : Ent) (l : List Ent) (t : Nat) :
    headGap (p :: l) t = p.arrival - t := rfl

theorem upd_remaining (e : Ent) (x : Nat) :
    ({ e with remaining := x } : Ent).remaining = x := rfl

/-- Embeds one iteration of the `while processes or ready_queue or active_process:`
loop shared by `sjn_preemptive_scheduling` (source lines 50-81) and
`priority_preemptive_scheduling` (source lines 120-151); the two bodies are
identical except for the ranking key (`x[2]` respectively `x[4]`) used to sort
the ready queue and for the preemption test, so the loop is embedded once,
parametric in `key`.  One call is one iteration: the inner `while` admits the
already-arrived prefix of `procs` into the ready queue; `pickActive` installs
an active process if there is none; an active process executes one time slice
and is preempted if a newly arrived entry ranks strictly better than it; with
no active process and no ready process the clock advances by one unit.  In the
idle branch the ready queue (provably `[]` there) is passed through unchanged,
matching the source which leaves `ready_queue` untouched. -/
def preemptAux (key : Ent → Nat) (procs ready : List Ent) (active : Option Ent)
    (t : Nat) : Schedule :=
  let newly := procs.takeWhile (fun p => p.arrival ≤ t)
  let rest := procs.dropWhile (fun p => p.arrival ≤ t)
  match _hpk : pickActive key active (ready ++ newly) with
  | (none, _) =>
    match _hr : rest with
    | [] => []
    | hd :: _ => preemptAux key rest [] none (t + 1)
  | (some cur, rdy) =>
    let slice := sliceOf cur rest t
    let t2 := t + slice
    let r2 := cur.remaining - slice
    match _hna : rest.filter (fun p => p.arrival ≤ t2) with
    | [] =>
      (cur.pid, t, t2) ::
        (if _hr2 : r2 = 0 then preemptAux key rest rdy none t2
         else preemptAux key rest rdy (some { cur with remaining := r2 }) t2)
    | a :: arrs =>
      match _hrq : List.insertionSort (entLE key) (rdy ++ a :: arrs) with
      | [] => []
      | h :: tl =>
        (cur.pid, t, t2) ::
          (if _hk : key h < key { cur with remaining := r2 } then
            preemptAux key (rest.filter (fun p => ¬ p.arrival ≤ t2))
              (tl ++ [{ cur with remaining := r2 }]) (some h) t2
          else if _hr2 : r2 = 0 then
            preemptAux key (rest.filter (fun p => ¬ p.arrival ≤ t2)) (h :: tl) none t2
          else
            preemptAux key (rest.filter (fun p => ¬ p.arrival ≤ t2)) (h :: tl)
              (some { cur with remaining := r2 }) t2)
termination_by
  (remSum procs + remSum ready + entRemOpt active,
   2 * procs.length + ready.length + actCount active,
   headGap procs t)
decreasing_by
  · obtain ⟨hact, hrq0⟩ := pickActive_none _hpk
    have hready : ready = [] := (List.append_eq_nil.mp hrq0).1
    have htw : procs.takeWhile (fun p => decide (p.arrival ≤ t)) = [] :=
      (List.append_eq_nil.mp hrq0).2
    have hrest : procs.dropWhile (fun p => decide (p.arrival ≤ t)) = procs := by
      have hsplit := List.takeWhile_append_dropWhile (fun p => decide (p.arrival ≤ t)) procs
      rw [htw] at hsplit
      simpa using hsplit
    obtain ⟨rs, hpr⟩ : ∃ rs, procs = hd :: rs := ⟨_, by rw [← hrest]; exact _hr⟩
    have harr : ¬ (hd.arrival ≤ t) := by
      intro hc
      rw [hpr] at htw
      simp [List.takeWhile, hc] at htw
    apply lex3
    rw [hact, hready, hrest, hpr]
    simp only [remSum_nil, entRemOpt_none, actCount_none, headGap_cons, List.length_nil,
      lt_self_iff_false, false_or, true_and]
    omega
  all_goals
    obtain ⟨hpk1, hpk2⟩ := pickActive_spec _hpk
    rw [remSum_append] at hpk1
    rw [List.length_append] at hpk2
    have hpk1e : remSum rdy + cur.remaining
        = remSum ready + remSum (procs.takeWhile (fun p => p.arrival ≤ t))
          + entRemOpt active := hpk1
    have hpk2e : rdy.length + 1
        = ready.length + (procs.takeWhile (fun p => p.arrival ≤ t)).length
          + actCount active := hpk2
    clear hpk1 hpk2
    have htw1 := tw_dw_arr_rem t procs
    have htw2 := takeWhile_dropWhile_length (fun p => decide (p.arrival ≤ t)) procs
    have hsl := sliceOf_eq cur (procs.dropWhile (fun p => p.arrival ≤ t)) t
    apply lex3
    simp only [remSum_append, remSum_cons, remSum_nil, entRemOpt_none, entRemOpt_some,
      actCount_none, actCount_some, upd_remaining,
      List.length_append, List.length_cons, List.length_nil]
  · by_cases hz : cur.remaining = 0
    · rw [if_pos hz] at hsl
      omega
    · rw [if_neg hz] at hsl
      omega
  · by_cases hz : cur.remaining = 0
    · rw [if_pos hz] at hsl
      omega
    · rw [if_neg hz] at hsl
      omega
  all_goals
    have hp := List.perm_insertionSort (entLE key) (rdy ++ a :: arrs)
    rw [_hrq] at hp
    have hq1 : remSum (h :: tl) = remSum (rdy ++ a :: arrs) := by
      unfold remSum
      exact (hp.map (fun x => x.remaining)).sum_eq
    have hq2 := hp.length_eq
    rw [remSum_cons, remSum_append, remSum_cons] at hq1
    simp only [List.length_append, List.length_cons] at hq2
    have hna1 : remSum ((procs.dropWhile (fun p => p.arrival ≤ t)).filter
        (fun p => p.arrival ≤ t + sliceOf cur (procs.dropWhile (fun p => p.arrival ≤ t)) t))
        = remSum (a :: arrs) := congrArg remSum _hna
    rw [remSum_cons] at hna1
    have hna2 : ((procs.dropWhile (fun p => p.arrival ≤ t)).filter
        (fun p => p.arrival ≤ t + sliceOf cur (procs.dropWhile (fun p => p.arrival ≤ t)) t)).length
        = (a :: arrs).length := congrArg List.length _hna
    simp only [List.length_cons] at hna2
    have hfs1 := filter_arr_split_rem
      (t + sliceOf cur (procs.dropWhile (fun p => p.arrival ≤ t)) t)
      (procs.dropWhile (fun p => p.arrival ≤ t))
    have hfs2 := filter_arr_split_len
      (t + sliceOf cur (procs.dropWhile (fun p => p.arrival ≤ t)) t)
      (procs.dropWhile (fun p => p.arrival ≤ t))
  · by_cases hz : cur.remaining = 0
    · rw [if_pos hz] at hsl
      omega
    · rw [if_neg hz] at hsl
      omega
  · by_cases hz : cur.remaining = 0
    · rw [if_pos hz] at hsl
      omega
    · rw [if_neg hz] at hsl
      omega
  · by_cases hz : cur.remaining = 0
    · rw [if_pos hz] at hsl
      omega
    · rw [if_neg hz] at hsl
      omega

/-- Embeds `sjn_preemptive_scheduling` (source lines 43-82).  The initial
`current_time = min(p[1] for p in processes)` raises `ValueError` on an empty
process list; that failure is modelled by `none`. -/
def sjn_preemptive_scheduling (ps : List Process) : Option Schedule :=
  match (ps.map (·.arrival)).min? with
  | none => none
  | some t0 => some (preemptAux keyRem (entsOf ps) [] none t0)

/-- Embeds `priority_preemptive_scheduling` (source lines 113-152): the same
loop as `sjn_preemptive_scheduling` with ranking key `x[4]` (priority). -/
def priority_preemptive_scheduling (ps : List Process) : Option Schedule :=
  match (ps.map (·.arrival)).min? with
  | none => none
  | some t0 => some (preemptAux keyPrio (entsOf ps) [] none t0)

theorem upd_burst (p : Process) (x : Nat) :
    ({ p with burst := x } : Process).burst = x := rfl

/-- Embeds the `while queue:` loop of `round_robin_scheduling` (source lines
89-99): pop the head, run it for `min(quantum, burst)` starting at
`max(current_time, arrival)`, and append it back with the reduced burst if
any burst remains.  With `quantum = 0` and a positive burst in the queue the
source loop never terminates, so the embedding carries the hypothesis
`1 ≤ quantum` under which the loop provably terminates. -/
def rrAux (quantum : Nat) (hq : 1 ≤ quantum) (queue : List Process) (t : Nat) :
    Schedule :=
  match queue with
  | [] => []
  | p :: rest =>
    if _h : 0 < p.burst - min quantum p.burst then
      (p.pid, max t p.arrival, max t p.arrival + min quantum p.burst) ::
        rrAux quantum hq (rest ++ [{ p with burst := p.burst - min quantum p.burst }])
          (max t p.arrival + min quantum p.burst)
    else
      (p.pid, max t p.arrival, max t p.arrival + min quantum p.burst) ::
        rrAux quantum hq rest (max t p.arrival + min quantum p.burst)
termination_by (queue.map (fun p => p.burst + 1)).sum
decreasing_by
  · simp only [List.map_append, List.sum_append, List.map_cons, List.sum_cons,
      List.map_nil, List.sum_nil, upd_burst]
    omega
  · simp only [List.map_cons, List.sum_cons]
    omega

/-- Embeds `round_robin_scheduling` (source lines 84-99).  The `quantum = 0`
case, on which the source loop diverges for any positive burst, is mapped to
the empty schedule; every claim about Round Robin assumes `1 ≤ quantum`. -/
def round_robin_scheduling (ps : List Process) (quantum : Nat) : Schedule :=
  if hq : 1 ≤ quantum then rrAux quantum hq ps 0 else []

/-- Python dict assignment `d[k] = v`: update the first (unique) occurrence of
the key in place, else append the pair; insertion order is preserved. -/
def dictUpsert {α : Type} : List (String × α) → String → α → List (String × α)
  | [], k, v => [(k, v)]
  | kv :: d, k, v => if kv.1 = k then (k, v) :: d else kv :: dictUpsert d k v

/-- Python dict lookup `d[k]`, with `none` for the `KeyError` case. -/
def dictGet {α : Type} : List (String × α) → String → Option α
  | [], _ => none
  | kv :: d, k => if kv.1 = k then some kv.2 else dictGet d k

/-- Python conditional insertion `if k not in d: d[k] = v`. -/
def dictInsertIfAbsent {α : Type} : List (String × α) → String → α → List (String × α)
  | [], k, v => [(k, v)]
  | kv :: d, k, v => if kv.1 = k then kv :: d else kv :: dictInsertIfAbsent d k v

/-- Models `sum(d.values()) / len(d) if d else 0` with Python true division. -/
def avgOf (d : List (String × Int)) : ℚ :=
  if d.length = 0 then 0 else ((d.map (·.2)).sum : ℚ) / (d.length : ℚ)

/-- Result tuple of the two metric calculators: waiting times, average
waiting, turnaround times, average turnaround, response times, average
response. -/
abbrev Metrics : Type :=
  (List (String × Int)) × ℚ × (List (String × Int)) × ℚ × (List (String × Int)) × ℚ

/-- Embeds `calculate_waiting_time` (source lines 155-170), the metrics
calculator for the non-preemptive policies.  The dict lookups
`completion_times[pid]` and `first_starts[pid]` in the comprehensions on
lines 165-166 raise `KeyError` when a process never appears in the schedule;
this is modelled by `Option.none` via `mapM`.  The waiting-time comprehension
(line 164) is guarded by `if pid in first_starts` and cannot fail. -/
def calculate_waiting_time (schedule : Schedule) (processes : List Process) :
    Option Metrics :=
  let pd := processes.foldl (fun d p => dictUpsert d p.pid p.arrival) []
  let fs := schedule.foldl (fun d s => dictInsertIfAbsent d s.1 s.2.1) []
  let ct := schedule.foldl (fun d s => dictUpsert d s.1 s.2.2) []
  let waiting_times : List (String × Int) :=
    pd.filterMap (fun kv =>
      (dictGet fs kv.1).map (fun st => (kv.1, max 0 ((st : Int) - (kv.2 : Int)))))
  (pd.mapM (fun kv =>
      (dictGet ct kv.1).map (fun e => (kv.1, (e : Int) - (kv.2 : Int))))).bind
    (fun turnaround_times =>
  (pd.mapM (fun kv =>
      (dictGet fs kv.1).map (fun st => (kv.1, (st : Int) - (kv.2 : Int))))).bind
    (fun response_times =>
  some (waiting_times, avgOf waiting_times, turnaround_times,
    avgOf turnaround_times, response_times, avgOf response_times)))

/-- State of the per-segment loop of `calculate_preemptive_waiting_time`
(source lines 175-189). -/
structure CState where
  waiting : List (String × Int)
  firstStarts : List (String × Nat)
  completion : List (String × Nat)
  lastEnd : List (String × Nat)

/-- Embeds the body of the `for pid, start, end in schedule:` loop of
`calculate_preemptive_waiting_time` (source lines 179-189). -/
def cpwtStep (pd : List (String × Nat × Nat)) (st : CState) (seg : Seg) : CState :=
  let f2 := if (dictGet st.firstStarts seg.1).isSome then st.firstStarts
    else dictUpsert st.firstStarts seg.1 seg.2.1
  match dictGet pd seg.1 with
  | none =>
    { st with firstStarts := f2, completion := dictUpsert st.completion seg.1 seg.2.2 }
  | some av =>
    let w2 :=
      match dictGet st.waiting seg.1 with
      | none => dictUpsert st.waiting seg.1 (max 0 ((seg.2.1 : Int) - (av.1 : Int)))
      | some wOld =>
        match dictGet st.lastEnd seg.1 with
        | some le0 => dictUpsert st.waiting seg.1 (wOld + ((seg.2.1 : Int) - (le0 : Int)))
        | none => st.waiting
    { waiting := w2, firstStarts := f2,
      completion := dictUpsert st.completion seg.1 seg.2.2,
      lastEnd := dictUpsert st.lastEnd seg.1 seg.2.2 }

/-- Embeds `calculate_preemptive_waiting_time` (source lines 172-195), the
metrics calculator for the preemptive policies.  As in the non-preemptive
calculator, the comprehensions on lines 190-191 raise `KeyError` (modelled by
`none`) when some process of the set never appears in the schedule. -/
def calculate_preemptive_waiting_time (schedule : Schedule)
    (processes : List Process) : Option Metrics :=
  let pd := processes.foldl (fun d p => dictUpsert d p.pid (p.arrival, p.burst)) []
  let st := schedule.foldl (cpwtStep pd) ⟨[], [], [], []⟩
  (pd.mapM (fun kv =>
      (dictGet st.completion kv.1).map (fun e => (kv.1, (e : Int) - (kv.2.1 : Int))))).bind
    (fun turnaround_times =>
  (pd.mapM (fun kv =>
      (dictGet st.firstStarts kv.1).map (fun s0 => (kv.1, (s0 : Int) - (kv.2.1 : Int))))).bind
    (fun response_times =>
  some (st.waiting, avgOf st.waiting, turnaround_times,
    avgOf turnaround_times, response_times, avgOf response_times)))

/-- Embeds `run_simulation` (source lines 228-253): dispatch on the algorithm
name (an unknown name leaves `schedule` unbound and raises, hence `none`),
compute the per-process metrics, then the aggregate
`total_time = schedule[-1][2] - min(p[1] for p in processes)` (IndexError on
an empty schedule, ValueError on an empty process list, both `none`),
`cpu_util` and `throughput` with their explicit `if total_time > 0 else 0`
guards. -/
def run_simulation (processes : List Process) (algo : String) (quantum : Nat) :
    Option (Schedule × Metrics × ℚ × ℚ) :=
  (if algo = "FCFS" then
    (calculate_waiting_time (fcfs_scheduling processes) processes).map
      (fun m => (fcfs_scheduling processes, m))
  else if algo = "SJN" then
    (calculate_waiting_time (sjn_scheduling processes) processes).map
      (fun m => (sjn_scheduling processes, m))
  else if algo = "SJN with Preemption" then
    (sjn_preemptive_scheduling processes).bind (fun s =>
      (calculate_preemptive_waiting_time s processes).map (fun m => (s, m)))
  else if algo = "Round Robin" then
    (calculate_preemptive_waiting_time (round_robin_scheduling processes quantum)
        processes).map
      (fun m => (round_robin_scheduling processes quantum, m))
  else if algo = "Priority" then
    (calculate_waiting_time (priority_scheduling processes) processes).map
      (fun m => (priority_scheduling processes, m))
  else if algo = "Priority with Preemption" then
    (priority_preemptive_scheduling processes).bind (fun s =>
      (calculate_preemptive_waiting_time s processes).map (fun m => (s, m)))
  else none).bind (fun sm =>
  (sm.1.getLast?).bind (fun lastSeg =>
  ((processes.map (·.arrival)).min?).bind (fun minArr =>
  let total_time : Int := (lastSeg.2.2 : Int) - (minArr : Int)
  let busy_time : Int := ((processes.map (·.burst)).sum : Nat)
  let cpu_util : ℚ := if 0 < total_time then (busy_time : ℚ) / (total_time : ℚ) * 100 else 0
  let throughput : ℚ := if 0 < total_time then (processes.length : ℚ) / (total_time : ℚ) else 0
  some (sm.1, sm.2, cpu_util, throughput))))

theorem sjnAux_eq_dispatch (pending ready : List Process) (t : Nat) (p : Process)
    (rq : List Process)
    (h : List.insertionSort burstLE (ready ++ pending.takeWhile (fun q => q.arrival ≤ t))
      = p :: rq) :
    sjnAux pending ready t
      = (p.pid, t, t + p.burst) ::
        sjnAux (pending.dropWhile (fun q => q.arrival ≤ t)) rq (t + p.burst) := by
  rw [sjnAux.eq_def]
  dsimp only
  split
  · rename_i p2 rq2 heq
    rw [h] at heq
    injection heq with h1 h2
    subst h1
    subst h2
    rfl
  · rename_i heq
    rw [h] at heq
    exact absurd heq (by simp)

theorem sjnAux_eq_idle (pending ready : List Process) (t : Nat) (r : Process)
    (rs : List Process)
    (h : List.insertionSort burstLE (ready ++ pending.takeWhile (fun q => q.arrival ≤ t)) = [])
    (h2 : pending.dropWhile (fun q => q.arrival ≤ t) = r :: rs) :
    sjnAux pending ready t
      = sjnAux (pending.dropWhile (fun q => q.arrival ≤ t)) ready r.arrival := by
  rw [sjnAux.eq_def]
  dsimp only
  split
  · rename_i p2 rq2 heq
    rw [h] at heq
    exact absurd heq (by simp)
  · split
    · rename_i r2 rs2 heq2
      rw [h2] at heq2
      injection heq2 with h3 h4
      subst h3
      rfl
    · rename_i heq2
      rw [h2] at heq2
      exact absurd heq2 (by simp)

theorem sjnAux_eq_nil (pending ready : List Process) (t : Nat)
    (h : List.insertionSort burstLE (ready ++ pending.takeWhile (fun q => q.arrival ≤ t)) = [])
    (h2 : pending.dropWhile (fun q => q.arrival ≤ t) = []) :
    sjnAux pending ready t = [] := by
  rw [sjnAux.eq_def]
  dsimp only
  split
  · rename_i p2 rq2 heq
    rw [h] at heq
    exact absurd heq (by simp)
  · split
    · rename_i r2 rs2 heq2
      rw [h2] at heq2
      exact absurd heq2 (by simp)
    · rfl

theorem rrAux_eq_nil (quantum : Nat) (hq : 1 ≤ quantum) (t : Nat) :
    rrAux quantum hq [] t = [] := by
  rw [rrAux.eq_def]

theorem rrAux_eq_requeue (quantum : Nat) (hq : 1 ≤ quantum) (p : Process)
    (rest : List Process) (t : Nat) (h : 0 < p.burst - min quantum p.burst) :
    rrAux quantum hq (p :: rest) t
      = (p.pid, max t p.arrival, max t p.arrival + min quantum p.burst) ::
        rrAux quantum hq (rest ++ [{ p with burst := p.burst - min quantum p.burst }])
          (max t p.arrival + min quantum p.burst) := by
  rw [rrAux.eq_def]
  dsimp only
  rw [dif_pos h]

theorem rrAux_eq_done (quantum : Nat) (hq : 1 ≤ quantum) (p : Process)
    (rest : List Process) (t : Nat) (h : ¬ 0 < p.burst - min quantum p.burst) :
    rrAux quantum hq (p :: rest) t
      = (p.pid, max t p.arrival, max t p.arrival + min quantum p.burst) ::
        rrAux quantum hq rest (max t p.arrival + min quantum p.burst) := by
  rw [rrAux.eq_def]
  dsimp only
  rw [dif_neg h]

theorem preemptAux_eq_nil (key : Ent → Nat) (procs ready : List Ent)
    (active : Option Ent) (t : Nat) (x : List Ent)
    (hpk : pickActive key active (ready ++ procs.takeWhile (fun p => p.arrival ≤ t))
      = (none, x))
    (hr : procs.dropWhile (fun p => p.arrival ≤ t) = []) :
    preemptAux key procs ready active t = [] := by
  rw [preemptAux.eq_def]
  dsimp only
  split
  · split
    · rfl
    · rename_i heq2
      rw [hr] at heq2
      exact absurd heq2 (by simp)
  · rename_i cur2 rdy2 heq
    rw [hpk] at heq
    exact absurd heq (by simp)

theorem preemptAux_eq_idle (key : Ent → Nat) (procs ready : List Ent)
    (active : Option Ent) (t : Nat) (x : List Ent) (hd : Ent) (hs : List Ent)
    (hpk : pickActive key active (ready ++ procs.takeWhile (fun p => p.arrival ≤ t))
      = (none, x))
    (hr : procs.dropWhile (fun p => p.arrival ≤ t) = hd :: hs) :
    preemptAux key procs ready active t
      = preemptAux key (procs.dropWhile (fun p => p.arrival ≤ t)) [] none (t + 1) := by
  rw [preemptAux.eq_def]
  dsimp only
  split
  · split
    · rename_i heq2
      rw [hr] at heq2
      exact absurd heq2 (by simp)
    · rfl
  · rename_i cur2 rdy2 heq
    rw [hpk] at heq
    exact absurd heq (by simp)

theorem preemptAux_eq_noArr0 (key : Ent → Nat) (procs ready : List Ent)
    (active : Option Ent) (t : Nat) (cur : Ent) (rdy : List Ent)
    (hpk : pickActive key active (ready ++ procs.takeWhile (fun p => p.arrival ≤ t))
      = (some cur, rdy))
    (hna : (procs.dropWhile (fun p => p.arrival ≤ t)).filter
      (fun p => p.arrival ≤ t + sliceOf cur (procs.dropWhile (fun p => p.arrival ≤ t)) t) = [])
    (hz : cur.remaining - sliceOf cur (procs.dropWhile (fun p => p.arrival ≤ t)) t = 0) :
    preemptAux key procs ready active t
      = (cur.pid, t, t + sliceOf cur (procs.dropWhile (fun p => p.arrival ≤ t)) t) ::
        preemptAux key (procs.dropWhile (fun p => p.arrival ≤ t)) rdy none
          (t + sliceOf cur (procs.dropWhile (fun p => p.arrival ≤ t)) t) := by
  rw [preemptAux.eq_def]
  dsimp only
  split
  · rename_i heq
    rw [hpk] at heq
    exact absurd heq (by simp)
  · rename_i cur2 rdy2 heq
    rw [hpk] at heq
    injection heq with h1 h2
    injection h1 with h1
    subst h1
    subst h2
    split
    · rw [dif_pos hz]
    · rename_i a2 arrs2 heq2
      rw [hna] at heq2
      exact absurd heq2 (by simp)

theorem preemptAux_eq_noArrPos (key : Ent → Nat) (procs ready : List Ent)
    (active : Option Ent) (t : Nat) (cur : Ent) (rdy : List Ent)
    (hpk : pickActive key active (ready ++ procs.takeWhile (fun p => p.arrival ≤ t))
      = (some cur, rdy))
    (hna : (procs.dropWhile (fun p => p.arrival ≤ t)).filter
      (fun p => p.arrival ≤ t + sliceOf cur (procs.dropWhile (fun p => p.arrival ≤ t)) t) = [])
    (hz : ¬ cur.remaining - sliceOf cur (procs.dropWhile (fun p => p.arrival ≤ t)) t = 0) :
    preemptAux key procs ready active t
      = (cur.pid, t, t + sliceOf cur (procs.dropWhile (fun p => p.arrival ≤ t)) t) ::
        preemptAux key (procs.dropWhile (fun p => p.arrival ≤ t)) rdy
          (some { cur with remaining :=
            cur.remaining - sliceOf cur (procs.dropWhile (fun p => p.arrival ≤ t)) t })
          (t + sliceOf cur (procs.dropWhile (fun p => p.arrival ≤ t)) t) := by
  rw [preemptAux.eq_def]
  dsimp only
  split
  · rename_i heq
    rw [hpk] at heq
    exact absurd heq (by simp)
  · rename_i cur2 rdy2 heq
    rw [hpk] at heq
    injection heq with h1 h2
    injection h1 with h1
    subst h1
    subst h2
    split
    · rw [dif_neg hz]
    · rename_i a2 arrs2 heq2
      rw [hna] at heq2
      exact absurd heq2 (by simp)

theorem preemptAux_eq_preempt (key : Ent → Nat) (procs ready : List Ent)
    (active : Option Ent) (t : Nat) (cur : Ent) (rdy : List Ent) (a h : Ent)
    (arrs tl : List Ent)
    (hpk : pickActive key active (ready ++ procs.takeWhile (fun p => p.arrival ≤ t))
      = (some cur, rdy))
    (hna : (procs.dropWhile (fun p => p.arrival ≤ t)).filter
      (fun p => p.arrival ≤ t + sliceOf cur (procs.dropWhile (fun p => p.arrival ≤ t)) t)
      = a :: arrs)
    (hrq : List.insertionSort (entLE key) (rdy ++ a :: arrs) = h :: tl)
    (hk : key h < key { cur with remaining :=
      (cur.remaining - sliceOf cur (procs.dropWhile (fun p => p.arrival ≤ t)) t) }) :
    preemptAux key procs ready active t
      = (cur.pid, t, t + sliceOf cur (procs.dropWhile (fun p => p.arrival ≤ t)) t) ::
        preemptAux key
          ((procs.dropWhile (fun p => p.arrival ≤ t)).filter
            (fun p => ¬ p.arrival ≤ t + sliceOf cur (procs.dropWhile (fun p => p.arrival ≤ t)) t))
          (tl ++ [{ cur with remaining :=
            cur.remaining - sliceOf cur (procs.dropWhile (fun p => p.arrival ≤ t)) t }])
          (some h)
          (t + sliceOf cur (procs.dropWhile (fun p => p.arrival ≤ t)) t) := by
  rw [preemptAux.eq_def]
  dsimp only
  split
  · rename_i heq
    rw [hpk] at heq
    exact absurd heq (by simp)
  · rename_i cur2 rdy2 heq
    rw [hpk] at heq
    injection heq with h1 h2
    injection h1 with h1
    subst h1
    subst h2
    split
    · rename_i heq2
      rw [hna] at heq2
      exact absurd heq2 (by simp)
    · rename_i a2 arrs2 heq2
      rw [hna] at heq2
      injection heq2 with h3 h4
      subst h3
      subst h4
      split
      · rename_i heq3
        rw [hrq] at heq3
        exact absurd heq3 (by simp)
      · rename_i h3 tl3 heq3
        rw [hrq] at heq3
        injection heq3 with h5 h6
        subst h5
        subst h6
        rw [dif_pos hk]

theorem preemptAux_eq_noPre0 (key : Ent → Nat) (procs ready : List Ent)
    (active : Option Ent) (t : Nat) (cur : Ent) (rdy : List Ent) (a h : Ent)
    (arrs tl : List Ent)
    (hpk : pickActive key active (ready ++ procs.takeWhile (fun p => p.arrival ≤ t))
      = (some cur, rdy))
    (hna : (procs.dropWhile (fun p => p.arrival ≤ t)).filter
      (fun p => p.arrival ≤ t + sliceOf cur (procs.dropWhile (fun p => p.arrival ≤ t)) t)
      = a :: arrs)
    (hrq : List.insertionSort (entLE key) (rdy ++ a :: arrs) = h :: tl)
    (hk : ¬ key h < key { cur with remaining :=
      (cur.remaining - sliceOf cur (procs.dropWhile (fun p => p.arrival ≤ t)) t) })
    (hz : cur.remaining - sliceOf cur (procs.dropWhile (fun p => p.arrival ≤ t)) t = 0) :
    preemptAux key procs ready active t
      = (cur.pid, t, t + sliceOf cur (procs.dropWhile (fun p => p.arrival ≤ t)) t) ::
        preemptAux key
          ((procs.dropWhile (fun p => p.arrival ≤ t)).filter
            (fun p => ¬ p.arrival ≤ t + sliceOf cur (procs.dropWhile (fun p => p.arrival ≤ t)) t))
          (h :: tl) none
          (t + sliceOf cur (procs.dropWhile (fun p => p.arrival ≤ t)) t) := by
  rw [preemptAux.eq_def]
  dsimp only
  split
  · rename_i heq
    rw [hpk] at heq
    exact absurd heq (by simp)
  · rename_i cur2 rdy2 heq
    rw [hpk] at heq
    injection heq with h1 h2
    injection h1 with h1
    subst h1
    subst h2
    split
    · rename_i heq2
      rw [hna] at heq2
      exact absurd heq2 (by simp)
    · rename_i a2 arrs2 heq2
      rw [hna] at heq2
      injection heq2 with h3 h4
      subst h3
      subst h4
      split
      · rename_i heq3
        rw [hrq] at heq3
        exact absurd heq3 (by simp)
      · rename_i h3 tl3 heq3
        rw [hrq] at heq3
        injection heq3 with h5 h6
        subst h5
        subst h6
        rw [dif_neg hk, dif_pos hz]

theorem preemptAux_eq_noPrePos (key : Ent → Nat) (procs ready : List Ent)
    (active : Option Ent) (t : Nat) (cur : Ent) (rdy : List Ent) (a h : Ent)
    (arrs tl : List Ent)
    (hpk : pickActive key active (ready ++ procs.takeWhile (fun p => p.arrival ≤ t))
      = (some cur, rdy))
    (hna : (procs.dropWhile (fun p => p.arrival ≤ t)).filter
      (fun p => p.arrival ≤ t + sliceOf cur (procs.dropWhile (fun p => p.arrival ≤ t)) t)
      = a :: arrs)
    (hrq : List.insertionSort (entLE key) (rdy ++ a :: arrs) = h :: tl)
    (hk : ¬ key h < key { cur with remaining :=
      (cur.remaining - sliceOf cur (procs.dropWhile (fun p => p.arrival ≤ t)) t) })
    (hz : ¬ cur.remaining - sliceOf cur (procs.dropWhile (fun p => p.arrival ≤ t)) t = 0) :
    preemptAux key procs ready active t
      = (cur.pid, t, t + sliceOf cur (procs.dropWhile (fun p => p.arrival ≤ t)) t) ::
        preemptAux key
          ((procs.dropWhile (fun p => p.arrival ≤ t)).filter
            (fun p => ¬ p.arrival ≤ t + sliceOf cur (procs.dropWhile (fun p => p.arrival ≤ t)) t))
          (h :: tl)
          (some { cur with remaining :=
            cur.remaining - sliceOf cur (procs.dropWhile (fun p => p.arrival ≤ t)) t })
          (t + sliceOf cur (procs.dropWhile (fun p => p.arrival ≤ t)) t) := by
  rw [preemptAux.eq_def]
  dsimp only
  split
  · rename_i heq
    rw [hpk] at heq
    exact absurd heq (by simp)
  · rename_i cur2 rdy2 heq
    rw [hpk] at heq
    injection heq with h1 h2
    injection h1 with h1
    subst h1
    subst h2
    split
    · rename_i heq2
      rw [hna] at heq2
      exact absurd heq2 (by simp)
    · rename_i a2 arrs2 heq2
      rw [hna] at heq2
      injection heq2 with h3 h4
      subst h3
      subst h4
      split
      · rename_i heq3
        rw [hrq] at heq3
        exact absurd heq3 (by simp)
      · rename_i h3 tl3 heq3
        rw [hrq] at heq3
        injection heq3 with h5 h6
        subst h5
        subst h6
        rw [dif_neg hk, dif_neg hz]

/-- Valid process set as specified: non-empty, unique ids, bursts and
priorities at least 1 (arrivals are `Nat`, hence non-negative). -/
def ValidPS (ps : List Process) : Prop :=
  ps ≠ [] ∧ (ps.map (·.pid)).Nodup ∧ ∀ p ∈ ps, 1 ≤ p.burst ∧ 1 ≤ p.priority

instance (ps : List Process) : Decidable (ValidPS ps) := by
  unfold ValidPS
  infer_instance

/-- Two segments do not overlap in time. -/
def noOverlap (s1 s2 : Seg) : Prop := s1.2.2 ≤ s2.2.1 ∨ s2.2.2 ≤ s1.2.1

/-- The invariant of claim C2 for one schedule: pairwise non-overlapping
segments, and every segment starts no earlier than the arrival of the process
it belongs to. -/
def SchedOK (ps : List Process) (sched : Schedule) : Prop :=
  List.Pairwise noOverlap sched ∧
  ∀ seg ∈ sched, ∀ p ∈ ps, seg.1 = p.pid → p.arrival ≤ seg.2.1

theorem burstSumFor_perm {l l2 : List Process} (pid : String) (h : l.Perm l2) :
    burstSumFor pid l = burstSumFor pid l2 := by
  unfold burstSumFor
  exact ((h.filter _).map _).sum_eq

theorem burstSumFor_eq_zero (pid : String) (l : List Process)
    (h : pid ∉ l.map (·.pid)) : burstSumFor pid l = 0 := by
  induction l with
  | nil => rfl
  | cons p l ih =>
    simp only [List.map_cons, List.mem_cons, not_or] at h
    have h1 : ¬ (p.pid = pid) := fun hc => h.1 hc.symm
    have hz := ih h.2
    unfold burstSumFor at hz ⊢
    simp [h1, hz]

theorem burstSumFor_self (ps : List Process) (hnd : (ps.map (·.pid)).Nodup)
    (p : Process) (hp : p ∈ ps) : burstSumFor p.pid ps = p.burst := by
  induction ps with
  | nil => cases hp
  | cons q l ih =>
    simp only [List.map_cons, List.nodup_cons] at hnd
    rcases List.mem_cons.mp hp with h | h
    · subst h
      have hz := burstSumFor_eq_zero p.pid l hnd.1
      simp [burstSumFor] at hz ⊢
      omega
    · have hne : ¬ (q.pid = p.pid) := by
        intro hc
        exact hnd.1 (hc ▸ List.mem_map_of_mem (·.pid) h)
      simp [burstSumFor, hne] at ih ⊢
      exact ih hnd.2 h

theorem pid_unique {ps : List Process} (hnd : (ps.map (·.pid)).Nodup)
    {p q : Process} (hp : p ∈ ps) (hq : q ∈ ps) (hpq : p.pid = q.pid) : p = q :=
  List.inj_on_of_nodup_map hnd hp hq hpq

theorem fcfsAux_sumFor (pid : String) (l : List Process) (t : Nat) :
    sumDurFor pid (fcfsAux l t) = burstSumFor pid l := by
  induction l generalizing t with
  | nil => rfl
  | cons p l ih =>
    by_cases h : p.pid = pid
    · simp [fcfsAux, sumDurFor, burstSumFor, segDur, h] at ih ⊢
      rw [ih (max t p.arrival + p.burst)]
    · simp [fcfsAux, sumDurFor, burstSumFor, segDur, h] at ih ⊢
      rw [ih (max t p.arrival + p.burst)]

theorem fcfsAux_totalDur (l : List Process) (t : Nat) :
    totalDur (fcfsAux l t) = (l.map (·.burst)).sum := by
  induction l generalizing t with
  | nil => rfl
  | cons p l ih =>
    simp [fcfsAux, totalDur, segDur] at ih ⊢
    rw [ih (max t p.arrival + p.burst)]

theorem fcfsAux_mem (p : Process) (l : List Process) (t : Nat) (hp : p ∈ l) :
    ∃ s, (p.pid, s, s + p.burst) ∈ fcfsAux l t := by
  induction l generalizing t with
  | nil => cases hp
  | cons q l ih =>
    rcases List.mem_cons.mp hp with h | h
    · subst h
      exact ⟨max t p.arrival, by simp [fcfsAux]⟩
    · obtain ⟨s, hs⟩ := ih (max t q.arrival + q.burst) h
      exact ⟨s, by simp [fcfsAux, hs]⟩

theorem fcfsAux_start_ge (l : List Process) (t : Nat) :
    ∀ seg ∈ fcfsAux l t, t ≤ seg.2.1 ∧ seg.2.1 ≤ seg.2.2 := by
  induction l generalizing t with
  | nil => intro seg h; cases h
  | cons p l ih =>
    intro seg hseg
    rcases List.mem_cons.mp hseg with h | h
    · subst h
      dsimp only
      constructor
      · exact Nat.le_max_left t p.arrival
      · omega
    · have h2 := ih (max t p.arrival + p.burst) seg h
      constructor
      · have : t ≤ max t p.arrival + p.burst := by
          have := Nat.le_max_left t p.arrival
          omega
        omega
      · exact h2.2

theorem fcfsAux_chrono (l : List Process) (t : Nat) :
    List.Pairwise (fun a b => a.2.2 ≤ b.2.1) (fcfsAux l t) := by
  induction l generalizing t with
  | nil => exact List.Pairwise.nil
  | cons p l ih =>
    simp only [fcfsAux]
    constructor
    · intro seg hseg
      exact (fcfsAux_start_ge l (max t p.arrival + p.burst) seg hseg).1
    · exact ih (max t p.arrival + p.burst)

theorem fcfsAux_belongs (l : List Process) (t : Nat) :
    ∀ seg ∈ fcfsAux l t, ∃ p ∈ l, seg.1 = p.pid ∧ p.arrival ≤ seg.2.1
      ∧ seg.2.2 = seg.2.1 + p.burst := by
  induction l generalizing t with
  | nil => intro seg h; cases h
  | cons p l ih =>
    intro seg hseg
    rcases List.mem_cons.mp hseg with h | h
    · subst h
      exact ⟨p, List.mem_cons_self p l, rfl, Nat.le_max_right t p.arrival, rfl⟩
    · obtain ⟨q, hq, h1, h2, h3⟩ := ih (max t p.arrival + p.burst) seg h
      exact ⟨q, List.mem_cons_of_mem p hq, h1, h2, h3⟩

theorem segDur_mk (pid : String) (s e : Nat) : segDur (pid, s, e) = e - s := rfl

theorem sumDurFor_cons (pid : String) (s : Seg) (sched : Schedule) :
    sumDurFor pid (s :: sched)
      = (if s.1 = pid then segDur s else 0) + sumDurFor pid sched := by
  by_cases h : s.1 = pid
  · simp [sumDurFor, h]
  · simp [sumDurFor, h]

theorem totalDur_cons (s : Seg) (sched : Schedule) :
    totalDur (s :: sched) = segDur s + totalDur sched := by
  simp [totalDur]

theorem burstSumFor_append (pid : String) (l1 l2 : List Process) :
    burstSumFor pid (l1 ++ l2) = burstSumFor pid l1 + burstSumFor pid l2 := by
  simp [burstSumFor]

theorem burstSumFor_cons (pid : String) (p : Process) (l : List Process) :
    burstSumFor pid (p :: l)
      = (if p.pid = pid then p.burst else 0) + burstSumFor pid l := by
  by_cases h : p.pid = pid
  · simp [burstSumFor, h]
  · simp [burstSumFor, h]

theorem insertionSort_eq_nil {α : Type} {r : α → α → Prop} [DecidableRel r]
    {l : List α} (h : List.insertionSort r l = []) : l = [] := by
  have hp := List.perm_insertionSort r l
  rw [h] at hp
  exact hp.symm.eq_nil

theorem dropWhile_eq_self_of_takeWhile_nil {α : Type} (p : α → Bool) (l : List α)
    (h : l.takeWhile p = []) : l.dropWhile p = l := by
  have hs := List.takeWhile_append_dropWhile p l
  rw [h] at hs
  simpa using hs

theorem sjnAux_sumFor (pid : String) (pending ready : List Process) (t : Nat) :
    sumDurFor pid (sjnAux pending ready t) = burstSumFor pid (ready ++ pending) := by
  induction pending, ready, t using sjnAux.induct with
  | case1 pending ready t newly rest r tail hsort ih =>
    have hrd : rest = pending.dropWhile (fun q => q.arrival ≤ t) := rfl
    rw [hrd] at ih
    rw [sjnAux_eq_dispatch pending ready t r tail hsort, sumDurFor_cons, ih]
    have hperm : (ready ++ pending.takeWhile (fun q => q.arrival ≤ t)).Perm (r :: tail) := by
      have hp := List.perm_insertionSort burstLE
        (ready ++ pending.takeWhile (fun q => q.arrival ≤ t))
      rw [hsort] at hp
      exact hp.symm
    have hsplit : burstSumFor pid (ready ++ pending)
        = burstSumFor pid (r :: tail)
          + burstSumFor pid (pending.dropWhile (fun q => q.arrival ≤ t)) := by
      conv_lhs =>
        rw [show ready ++ pending
          = (ready ++ pending.takeWhile (fun q => decide (q.arrival ≤ t)))
            ++ pending.dropWhile (fun q => decide (q.arrival ≤ t)) by
          rw [List.append_assoc, List.takeWhile_append_dropWhile]]
      rw [burstSumFor_append, burstSumFor_perm pid hperm]
    rw [hsplit]
    simp only [burstSumFor_cons, burstSumFor_append, segDur_mk]
    by_cases hr : r.pid = pid
    · simp only [hr, if_pos]
      omega
    · simp only [hr, if_neg, not_false_iff]
      omega
  | case2 pending ready t newly rest hsort r tail hrest ih =>
    have hrd : rest = pending.dropWhile (fun q => q.arrival ≤ t) := rfl
    rw [hrd] at ih
    rw [sjnAux_eq_idle pending ready t r tail hsort hrest, ih]
    have hnil := insertionSort_eq_nil hsort
    have hready : ready = [] := (List.append_eq_nil.mp hnil).1
    have htw : pending.takeWhile (fun q => decide (q.arrival ≤ t)) = [] :=
      (List.append_eq_nil.mp hnil).2
    rw [dropWhile_eq_self_of_takeWhile_nil _ _ htw]
  | case3 pending ready t newly rest hsort hrest =>
    rw [sjnAux_eq_nil pending ready t hsort hrest]
    have hnil := insertionSort_eq_nil hsort
    have hready : ready = [] := (List.append_eq_nil.mp hnil).1
    have htw : pending.takeWhile (fun q => decide (q.arrival ≤ t)) = [] :=
      (List.append_eq_nil.mp hnil).2
    have hrd : pending.dropWhile (fun q => decide (q.arrival ≤ t)) = [] := hrest
    have hpend : pending = [] := by
      have hs := List.takeWhile_append_dropWhile (fun q => decide (q.arrival ≤ t)) pending
      rw [htw, hrd] at hs
      simpa using hs.symm
    rw [hready, hpend]
    rfl

theorem dropWhile_head_not {α : Type} (p : α → Bool) (l : List α) (r : α) (rs : List α)
    (h : l.dropWhile p = r :: rs) : ¬ p r := by
  induction l with
  | nil => simp [List.dropWhile] at h
  | cons a l ih =>
    by_cases hp : p a
    · rw [List.dropWhile_cons_of_pos hp] at h
      exact ih h
    · rw [List.dropWhile_cons_of_neg hp] at h
      injection h with h1 _
      subst h1
      exact hp

theorem sjnAux_totalDur (pending ready : List Process) (t : Nat) :
    totalDur (sjnAux pending ready t) = ((ready ++ pending).map (·.burst)).sum := by
  induction pending, ready, t using sjnAux.induct with
  | case1 pending ready t newly rest r tail hsort ih =>
    have hrd : rest = pending.dropWhile (fun q => q.arrival ≤ t) := rfl
    rw [hrd] at ih
    rw [sjnAux_eq_dispatch pending ready t r tail hsort, totalDur_cons, ih, segDur_mk]
    have hperm : (ready ++ pending.takeWhile (fun q => q.arrival ≤ t)).Perm (r :: tail) := by
      have hp := List.perm_insertionSort burstLE
        (ready ++ pending.takeWhile (fun q => q.arrival ≤ t))
      rw [hsort] at hp
      exact hp.symm
    have hsp : ((ready ++ pending).map (·.burst)).sum
        = ((r :: tail).map (·.burst)).sum
          + ((pending.dropWhile (fun q => q.arrival ≤ t)).map (·.burst)).sum := by
      conv_lhs =>
        rw [show ready ++ pending
          = (ready ++ pending.takeWhile (fun q => decide (q.arrival ≤ t)))
            ++ pending.dropWhile (fun q => decide (q.arrival ≤ t)) by
          rw [List.append_assoc, List.takeWhile_append_dropWhile]]
      rw [List.map_append, List.sum_append, (hperm.map (fun x => x.burst)).sum_eq]
    rw [hsp]
    simp only [List.map_cons, List.sum_cons, List.map_append, List.sum_append]
    omega
  | case2 pending ready t newly rest hsort r tail hrest ih =>
    have hrd : rest = pending.dropWhile (fun q => q.arrival ≤ t) := rfl
    rw [hrd] at ih
    rw [sjnAux_eq_idle pending ready t r tail hsort hrest, ih]
    have hnil := insertionSort_eq_nil hsort
    have htw : pending.takeWhile (fun q => decide (q.arrival ≤ t)) = [] :=
      (List.append_eq_nil.mp hnil).2
    rw [dropWhile_eq_self_of_takeWhile_nil _ _ htw]
  | case3 pending ready t newly rest hsort hrest =>
    rw [sjnAux_eq_nil pending ready t hsort hrest]
    have hnil := insertionSort_eq_nil hsort
    have hready : ready = [] := (List.append_eq_nil.mp hnil).1
    have htw : pending.takeWhile (fun q => decide (q.arrival ≤ t)) = [] :=
      (List.append_eq_nil.mp hnil).2
    have hrd : pending.dropWhile (fun q => decide (q.arrival ≤ t)) = [] := hrest
    have hpend : pending = [] := by
      have hs := List.takeWhile_append_dropWhile (fun q => decide (q.arrival ≤ t)) pending
      rw [htw, hrd] at hs
      simpa using hs.symm
    rw [hready, hpend]
    rfl

theorem sjnAux_start_ge (pending ready : List Process) (t : Nat) :
    (∀ p ∈ ready, p.arrival ≤ t) →
    ∀ seg ∈ sjnAux pending ready t, t ≤ seg.2.1 ∧ seg.2.1 ≤ seg.2.2 := by
  induction pending, ready, t using sjnAux.induct with
  | case1 pending ready t newly rest r tail hsort ih =>
    intro hr seg hseg
    have hrd : rest = pending.dropWhile (fun q => q.arrival ≤ t) := rfl
    rw [hrd] at ih
    rw [sjnAux_eq_dispatch pending ready t r tail hsort] at hseg
    have hperm : (ready ++ pending.takeWhile (fun q => q.arrival ≤ t)).Perm (r :: tail) := by
      have hp := List.perm_insertionSort burstLE
        (ready ++ pending.takeWhile (fun q => q.arrival ≤ t))
      rw [hsort] at hp
      exact hp.symm
    have htail : ∀ p ∈ tail, p.arrival ≤ t + r.burst := by
      intro p hp
      have hmem : p ∈ ready ++ pending.takeWhile (fun q => q.arrival ≤ t) :=
        hperm.symm.subset (List.mem_cons_of_mem r hp)
      rcases List.mem_append.mp hmem with h | h
      · have := hr p h
        omega
      · have := List.mem_takeWhile_imp h
        simp at this
        omega
    rcases List.mem_cons.mp hseg with h | h
    · subst h
      dsimp only
      omega
    · have h2 := ih htail seg h
      omega
  | case2 pending ready t newly rest hsort r tail hrest ih =>
    intro _hr seg hseg
    have hrd : rest = pending.dropWhile (fun q => q.arrival ≤ t) := rfl
    rw [hrd] at ih
    rw [sjnAux_eq_idle pending ready t r tail hsort hrest] at hseg
    have hnil := insertionSort_eq_nil hsort
    have hready : ready = [] := (List.append_eq_nil.mp hnil).1
    subst hready
    have ih2 := ih (by intro p hp; cases hp) seg hseg
    have hnr : ¬ (r.arrival ≤ t) := by
      have := dropWhile_head_not (fun q => decide (q.arrival ≤ t))
        pending r tail hrest
      simpa using this
    omega
  | case3 pending ready t newly rest hsort hrest =>
    intro _hr seg hseg
    rw [sjnAux_eq_nil pending ready t hsort hrest] at hseg
    cases hseg

theorem sjnAux_chrono (pending ready : List Process) (t : Nat) :
    (∀ p ∈ ready, p.arrival ≤ t) →
    List.Pairwise (fun a b => a.2.2 ≤ b.2.1) (sjnAux pending ready t) := by
  induction pending, ready, t using sjnAux.induct with
  | case1 pending ready t newly rest r tail hsort ih =>
    intro hr
    have hrd : rest = pending.dropWhile (fun q => q.arrival ≤ t) := rfl
    rw [hrd] at ih
    rw [sjnAux_eq_dispatch pending ready t r tail hsort]
    have hperm : (ready ++ pending.takeWhile (fun q => q.arrival ≤ t)).Perm (r :: tail) := by
      have hp := List.perm_insertionSort burstLE
        (ready ++ pending.takeWhile (fun q => q.arrival ≤ t))
      rw [hsort] at hp
      exact hp.symm
    have htail : ∀ p ∈ tail, p.arrival ≤ t + r.burst := by
      intro p hp
      have hmem : p ∈ ready ++ pending.takeWhile (fun q => q.arrival ≤ t) :=
        hperm.symm.subset (List.mem_cons_of_mem r hp)
      rcases List.mem_append.mp hmem with h | h
      · have := hr p h
        omega
      · have := List.mem_takeWhile_imp h
        simp at this
        omega
    constructor
    · intro seg hseg
      have := (sjnAux_start_ge _ tail (t + r.burst) htail seg hseg).1
      dsimp only
      omega
    · exact ih htail
  | case2 pending ready t newly rest hsort r tail hrest ih =>
    intro _hr
    rw [sjnAux_eq_idle pending ready t r tail hsort hrest]
    have hnil := insertionSort_eq_nil hsort
    have hready : ready = [] := (List.append_eq_nil.mp hnil).1
    subst hready
    exact ih (by intro p hp; cases hp)
  | case3 pending ready t newly rest hsort hrest =>
    intro _hr
    rw [sjnAux_eq_nil pending ready t hsort hrest]
    exact List.Pairwise.nil

theorem sjnAux_belongs (pending ready : List Process) (t : Nat) :
    (∀ p ∈ ready, p.arrival ≤ t) →
    ∀ seg ∈ sjnAux pending ready t,
      ∃ p ∈ ready ++ pending, seg.1 = p.pid ∧ p.arrival ≤ seg.2.1 := by
  induction pending, ready, t using sjnAux.induct with
  | case1 pending ready t newly rest r tail hsort ih =>
    intro hr seg hseg
    have hrd : rest = pending.dropWhile (fun q => q.arrival ≤ t) := rfl
    rw [hrd] at ih
    rw [sjnAux_eq_dispatch pending ready t r tail hsort] at hseg
    have hperm : (ready ++ pending.takeWhile (fun q => q.arrival ≤ t)).Perm (r :: tail) := by
      have hp := List.perm_insertionSort burstLE
        (ready ++ pending.takeWhile (fun q => q.arrival ≤ t))
      rw [hsort] at hp
      exact hp.symm
    have hsub : ∀ q ∈ ready ++ pending.takeWhile (fun x => x.arrival ≤ t),
        q ∈ ready ++ pending := by
      intro q hq
      rcases List.mem_append.mp hq with h | h
      · exact List.mem_append.mpr (Or.inl h)
      · exact List.mem_append.mpr
          (Or.inr ((List.takeWhile_sublist (fun x => decide (x.arrival ≤ t))).subset h))
    have harr : ∀ q ∈ ready ++ pending.takeWhile (fun x => x.arrival ≤ t),
        q.arrival ≤ t := by
      intro q hq
      rcases List.mem_append.mp hq with h | h
      · exact hr q h
      · have := List.mem_takeWhile_imp h
        simpa using this
    have htail : ∀ p ∈ tail, p.arrival ≤ t + r.burst := by
      intro p hp
      have hmem := hperm.symm.subset (List.mem_cons_of_mem r hp)
      have := harr p hmem
      omega
    rcases List.mem_cons.mp hseg with h | h
    · subst h
      refine ⟨r, ?_, rfl, ?_⟩
      · exact hsub r (hperm.symm.subset (List.mem_cons_self r tail))
      · exact harr r (hperm.symm.subset (List.mem_cons_self r tail))
    · obtain ⟨p, hp, h1, h2⟩ := ih htail seg h
      refine ⟨p, ?_, h1, h2⟩
      rcases List.mem_append.mp hp with hh | hh
      · exact hsub p (hperm.symm.subset (List.mem_cons_of_mem r hh))
      · exact List.mem_append.mpr
          (Or.inr ((List.dropWhile_sublist (fun x => decide (x.arrival ≤ t))).subset hh))
  | case2 pending ready t newly rest hsort r tail hrest ih =>
    intro _hr seg hseg
    have hrd : rest = pending.dropWhile (fun q => q.arrival ≤ t) := rfl
    rw [hrd] at ih
    rw [sjnAux_eq_idle pending ready t r tail hsort hrest] at hseg
    have hnil := insertionSort_eq_nil hsort
    have hready : ready = [] := (List.append_eq_nil.mp hnil).1
    subst hready
    obtain ⟨p, hp, h1, h2⟩ := ih (by intro p hp; cases hp) seg hseg
    refine ⟨p, ?_, h1, h2⟩
    simp only [List.nil_append] at hp ⊢
    exact (List.dropWhile_sublist (fun x => decide (x.arrival ≤ t))).subset hp
  | case3 pending ready t newly rest hsort hrest =>
    intro _hr seg hseg
    rw [sjnAux_eq_nil pending ready t hsort hrest] at hseg
    cases hseg

/-- Weight of an entry used to track conservation per process id: the
remaining time if the entry belongs to `pid`, else 0. -/
def pidW (pid : String) (e : Ent) : Nat := if e.pid = pid then e.remaining else 0

def optW (f : Ent → Nat) (o : Option Ent) : Nat :=
  match o with
  | none => 0
  | some e => f e

theorem optW_none (f : Ent → Nat) : optW f none = 0 := rfl

theorem optW_some (f : Ent → Nat) (e : Ent) : optW f (some e) = f e := rfl

theorem tw_dw_arr_w (f : Ent → Nat) (t : Nat) (l : List Ent) :
    ((l.takeWhile (fun p => p.arrival ≤ t)).map f).sum
      + ((l.dropWhile (fun p => p.arrival ≤ t)).map f).sum = (l.map f).sum := by
  induction l with
  | nil => simp
  | cons a l ih =>
    by_cases h : a.arrival ≤ t
    · simp [List.takeWhile, List.dropWhile, h] at ih ⊢
      omega
    · simp [List.takeWhile, List.dropWhile, h] at ih ⊢

theorem filter_arr_split_w (f : Ent → Nat) (t2 : Nat) (l : List Ent) :
    ((l.filter (fun p => p.arrival ≤ t2)).map f).sum
      + ((l.filter (fun p => ¬ p.arrival ≤ t2)).map f).sum = (l.map f).sum := by
  induction l with
  | nil => simp
  | cons a l ih =>
    by_cases h : a.arrival ≤ t2
    · have h2 : ¬ t2 < a.arrival := by omega
      simp [h, h2] at ih ⊢
      omega
    · have h2 : t2 < a.arrival := by omega
      simp [h, h2] at ih ⊢
      omega

theorem pickActive_w (f : Ent → Nat) {key : Ent → Nat} {active : Option Ent}
    {rq0 : List Ent} {cur : Ent} {rdy : List Ent}
    (h : pickActive key active rq0 = (some cur, rdy)) :
    (rdy.map f).sum + f cur = (rq0.map f).sum + optW f active := by
  rcases active with _ | e
  · unfold pickActive at h
    rcases hs : List.insertionSort (entLE key) rq0 with _ | ⟨e, es⟩
    · rw [hs] at h; simp at h
    · rw [hs] at h
      have he : e = cur := congrArg (fun x => (x.1.getD e)) h
      have hr : es = rdy := congrArg Prod.snd h
      have hp := List.perm_insertionSort (entLE key) rq0
      rw [hs, he, hr] at hp
      have h1 := (hp.map f).sum_eq
      simp only [List.map_cons, List.sum_cons] at h1
      simp only [optW_none]
      omega
  · unfold pickActive at h
    have he : e = cur := congrArg (fun x => (x.1.getD e)) h
    have hr : rq0 = rdy := congrArg Prod.snd h
    subst he
    subst hr
    simp only [optW_some]

theorem preemptAux_sumFor (key : Ent → Nat) (pid : String) (procs ready : List Ent)
    (active : Option Ent) (t : Nat) :
    sumDurFor pid (preemptAux key procs ready active t)
      = (procs.map (pidW pid)).sum + (ready.map (pidW pid)).sum
        + optW (pidW pid) active := by
  induction procs, ready, active, t using preemptAux.induct key with
  | case1 procs ready active t newly rest snd hpk hR =>
    rw [preemptAux_eq_nil key procs ready active t snd hpk hR]
    obtain ⟨hact, hrq0⟩ := pickActive_none hpk
    have hready : ready = [] := (List.append_eq_nil.mp hrq0).1
    have htw : procs.takeWhile (fun p => decide (p.arrival ≤ t)) = [] :=
      (List.append_eq_nil.mp hrq0).2
    have hpr : procs = [] := by
      have hs := List.takeWhile_append_dropWhile (fun p => decide (p.arrival ≤ t)) procs
      rw [htw] at hs
      have hRe : procs.dropWhile (fun p => decide (p.arrival ≤ t)) = [] := hR
      rw [hRe] at hs
      simpa using hs.symm
    rw [hact, hready, hpr]
    rfl
  | case2 procs ready active t newly rest snd hpk hd tail hR ih =>
    have ihe : sumDurFor pid (preemptAux key
          (procs.dropWhile (fun p => p.arrival ≤ t)) [] none (t + 1))
        = ((procs.dropWhile (fun p => p.arrival ≤ t)).map (pidW pid)).sum
          + (([] : List Ent).map (pidW pid)).sum + optW (pidW pid) none := ih
    rw [preemptAux_eq_idle key procs ready active t snd hd tail hpk hR, ihe]
    obtain ⟨hact, hrq0⟩ := pickActive_none hpk
    have hready : ready = [] := (List.append_eq_nil.mp hrq0).1
    have htw : procs.takeWhile (fun p => decide (p.arrival ≤ t)) = [] :=
      (List.append_eq_nil.mp hrq0).2
    rw [dropWhile_eq_self_of_takeWhile_nil _ _ htw, hact, hready]
  | case3 procs ready active t newly rest cur rdy hpk slice t2 r2 hna ih1 ih2 =>
    have hnae : (procs.dropWhile (fun p => p.arrival ≤ t)).filter
        (fun p => p.arrival ≤ t + sliceOf cur (procs.dropWhile (fun p => p.arrival ≤ t)) t)
        = [] := hna
    have hpaw := pickActive_w (pidW pid) hpk
    have hpawe : (rdy.map (pidW pid)).sum + pidW pid cur
        = ((ready ++ procs.takeWhile (fun p => p.arrival ≤ t)).map (pidW pid)).sum
          + optW (pidW pid) active := hpaw
    rw [List.map_append, List.sum_append] at hpawe
    have htw := tw_dw_arr_w (pidW pid) t procs
    have hsl := sliceOf_eq cur (procs.dropWhile (fun p => p.arrival ≤ t)) t
    by_cases hz : cur.remaining - sliceOf cur (procs.dropWhile (fun p => p.arrival ≤ t)) t = 0
    · have ihe : sumDurFor pid (preemptAux key
            (procs.dropWhile (fun p => p.arrival ≤ t)) rdy none
            (t + sliceOf cur (procs.dropWhile (fun p => p.arrival ≤ t)) t))
          = ((procs.dropWhile (fun p => p.arrival ≤ t)).map (pidW pid)).sum
            + (rdy.map (pidW pid)).sum + optW (pidW pid) none := ih1
      rw [preemptAux_eq_noArr0 key procs ready active t cur rdy hpk hnae hz,
        sumDurFor_cons, ihe, segDur_mk, optW_none]
      by_cases hp : cur.pid = pid
      · have hfc : pidW pid cur = cur.remaining := by simp [pidW, hp]
        simp only [hp, if_pos]
        rw [hfc] at hpawe
        by_cases hr0 : cur.remaining = 0
        · rw [if_pos hr0] at hsl
          omega
        · rw [if_neg hr0] at hsl
          omega
      · have hfc : pidW pid cur = 0 := by simp [pidW, hp]
        simp only [hp, if_neg, not_false_iff]
        rw [hfc] at hpawe
        omega
    · have ihe : sumDurFor pid (preemptAux key
            (procs.dropWhile (fun p => p.arrival ≤ t)) rdy
            (some { cur with remaining :=
              (cur.remaining - sliceOf cur (procs.dropWhile (fun p => p.arrival ≤ t)) t) })
            (t + sliceOf cur (procs.dropWhile (fun p => p.arrival ≤ t)) t))
          = ((procs.dropWhile (fun p => p.arrival ≤ t)).map (pidW pid)).sum
            + (rdy.map (pidW pid)).sum
            + optW (pidW pid) (some { cur with remaining :=
              (cur.remaining - sliceOf cur (procs.dropWhile (fun p => p.arrival ≤ t)) t) }) :=
        ih2 hz
      rw [preemptAux_eq_noArrPos key procs ready active t cur rdy hpk hnae hz,
        sumDurFor_cons, ihe, segDur_mk, optW_some]
      by_cases hp : cur.pid = pid
      · have hfc : pidW pid cur = cur.remaining := by simp [pidW, hp]
        have hfc2 : pidW pid { cur with remaining :=
            (cur.remaining - sliceOf cur (procs.dropWhile (fun p => p.arrival ≤ t)) t) }
            = cur.remaining - sliceOf cur (procs.dropWhile (fun p => p.arrival ≤ t)) t := by
          simp [pidW, hp]
        rw [hfc2]
        simp only [hp, if_pos]
        rw [hfc] at hpawe
        by_cases hr0 : cur.remaining = 0
        · rw [if_pos hr0] at hsl
          omega
        · rw [if_neg hr0] at hsl
          omega
      · have hfc : pidW pid cur = 0 := by simp [pidW, hp]
        have hfc2 : pidW pid { cur with remaining :=
            (cur.remaining - sliceOf cur (procs.dropWhile (fun p => p.arrival ≤ t)) t) } = 0 := by
          simp [pidW, hp]
        rw [hfc2]
        simp only [hp, if_neg, not_false_iff]
        rw [hfc] at hpawe
        omega
  | case4 procs ready active t newly rest cur rdy hpk slice t2 hd tail hna hsrt =>
    exfalso
    have hnil := insertionSort_eq_nil hsrt
    simp at hnil
  | case5 procs ready active t newly rest cur rdy hpk slice t2 r2 hd tail hna hd1 tl1 hrq ih1 ih2 ih3 =>
    have hnae : (procs.dropWhile (fun p => p.arrival ≤ t)).filter
        (fun p => p.arrival ≤ t + sliceOf cur (procs.dropWhile (fun p => p.arrival ≤ t)) t)
        = hd :: tail := hna
    have hpaw := pickActive_w (pidW pid) hpk
    have hpawe : (rdy.map (pidW pid)).sum + pidW pid cur
        = ((ready ++ procs.takeWhile (fun p => p.arrival ≤ t)).map (pidW pid)).sum
          + optW (pidW pid) active := hpaw
    rw [List.map_append, List.sum_append] at hpawe
    have htw := tw_dw_arr_w (pidW pid) t procs
    have hsl := sliceOf_eq cur (procs.dropWhile (fun p => p.arrival ≤ t)) t
    have hfsp := filter_arr_split_w (pidW pid)
      (t + sliceOf cur (procs.dropWhile (fun p => p.arrival ≤ t)) t)
      (procs.dropWhile (fun p => p.arrival ≤ t))
    rw [hnae] at hfsp
    have hperm := List.perm_insertionSort (entLE key) (rdy ++ hd :: tail)
    rw [hrq] at hperm
    have hq1 := (hperm.map (pidW pid)).sum_eq
    simp only [List.map_append, List.map_cons, List.sum_append, List.sum_cons] at hq1 hfsp
    have hslice_r2 : pidW pid cur
        = (if cur.pid = pid then sliceOf cur (procs.dropWhile (fun p => p.arrival ≤ t)) t else 0)
          + pidW pid { cur with remaining :=
            (cur.remaining - sliceOf cur (procs.dropWhile (fun p => p.arrival ≤ t)) t) } := by
      by_cases hp : cur.pid = pid
      · simp only [pidW, hp, if_pos, upd_remaining]
        by_cases hr0 : cur.remaining = 0
        · rw [if_pos hr0] at hsl
          omega
        · rw [if_neg hr0] at hsl
          omega
      · simp [pidW, hp]
    by_cases hk : key hd1 < key { cur with remaining :=
        (cur.remaining - sliceOf cur (procs.dropWhile (fun p => p.arrival ≤ t)) t) }
    · have ihe : sumDurFor pid (preemptAux key
            ((procs.dropWhile (fun p => p.arrival ≤ t)).filter
              (fun p => ¬ p.arrival ≤ t + sliceOf cur (procs.dropWhile (fun p => p.arrival ≤ t)) t))
            (tl1 ++ [{ cur with remaining :=
              (cur.remaining - sliceOf cur (procs.dropWhile (fun p => p.arrival ≤ t)) t) }])
            (some hd1)
            (t + sliceOf cur (procs.dropWhile (fun p => p.arrival ≤ t)) t))
          = (((procs.dropWhile (fun p => p.arrival ≤ t)).filter
              (fun p => ¬ p.arrival ≤ t + sliceOf cur (procs.dropWhile (fun p => p.arrival ≤ t)) t)).map (pidW pid)).sum
            + ((tl1 ++ [{ cur with remaining :=
              (cur.remaining - sliceOf cur (procs.dropWhile (fun p => p.arrival ≤ t)) t) }]).map (pidW pid)).sum
            + optW (pidW pid) (some hd1) := ih1
      rw [preemptAux_eq_preempt key procs ready active t cur rdy hd hd1 tail tl1
        hpk hnae hrq hk, sumDurFor_cons, ihe, segDur_mk, optW_some]
      simp only [List.map_append, List.map_cons, List.map_nil, List.sum_append,
        List.sum_cons, List.sum_nil]
      by_cases hp : cur.pid = pid
      · simp only [hp, if_pos] at hslice_r2 ⊢
        omega
      · simp only [hp, if_neg, not_false_iff] at hslice_r2 ⊢
        omega
    · by_cases hz : cur.remaining - sliceOf cur (procs.dropWhile (fun p => p.arrival ≤ t)) t = 0
      · have ihe : sumDurFor pid (preemptAux key
              ((procs.dropWhile (fun p => p.arrival ≤ t)).filter
                (fun p => ¬ p.arrival ≤ t + sliceOf cur (procs.dropWhile (fun p => p.arrival ≤ t)) t))
              (hd1 :: tl1) none
              (t + sliceOf cur (procs.dropWhile (fun p => p.arrival ≤ t)) t))
            = (((procs.dropWhile (fun p => p.arrival ≤ t)).filter
                (fun p => ¬ p.arrival ≤ t + sliceOf cur (procs.dropWhile (fun p => p.arrival ≤ t)) t)).map (pidW pid)).sum
              + ((hd1 :: tl1).map (pidW pid)).sum + optW (pidW pid) none := ih2
        rw [preemptAux_eq_noPre0 key procs ready active t cur rdy hd hd1 tail tl1
          hpk hnae hrq hk hz, sumDurFor_cons, ihe, segDur_mk, optW_none]
        simp only [List.map_cons, List.sum_cons]
        have hz2 : pidW pid { cur with remaining :=
            (cur.remaining - sliceOf cur (procs.dropWhile (fun p => p.arrival ≤ t)) t) } = 0 := by
          simp [pidW, hz]
        rw [hz2] at hslice_r2
        by_cases hp : cur.pid = pid
        · simp only [hp, if_pos]
          simp only [hp, if_pos] at hslice_r2
          omega
        · simp only [hp, if_neg, not_false_iff]
          simp only [hp, if_neg, not_false_iff] at hslice_r2
          omega
      · have ihe : sumDurFor pid (preemptAux key
              ((procs.dropWhile (fun p => p.arrival ≤ t)).filter
                (fun p => ¬ p.arrival ≤ t + sliceOf cur (procs.dropWhile (fun p => p.arrival ≤ t)) t))
              (hd1 :: tl1)
              (some { cur with remaining :=
                (cur.remaining - sliceOf cur (procs.dropWhile (fun p => p.arrival ≤ t)) t) })
              (t + sliceOf cur (procs.dropWhile (fun p => p.arrival ≤ t)) t))
            = (((procs.dropWhile (fun p => p.arrival ≤ t)).filter
                (fun p => ¬ p.arrival ≤ t + sliceOf cur (procs.dropWhile (fun p => p.arrival ≤ t)) t)).map (pidW pid)).sum
              + ((hd1 :: tl1).map (pidW pid)).sum
              + optW (pidW pid) (some { cur with remaining :=
                (cur.remaining - sliceOf cur (procs.dropWhile (fun p => p.arrival ≤ t)) t) }) := ih3
        rw [preemptAux_eq_noPrePos key procs ready active t cur rdy hd hd1 tail tl1
          hpk hnae hrq hk hz, sumDurFor_cons, ihe, segDur_mk, optW_some]
        simp only [List.map_cons, List.sum_cons]
        by_cases hp : cur.pid = pid
        · simp only [hp, if_pos]
          simp only [hp, if_pos] at hslice_r2
          omega
        · simp only [hp, if_neg, not_false_iff]
          simp only [hp, if_neg, not_false_iff] at hslice_r2
          omega

theorem preemptAux_start_ge (key : Ent → Nat) (procs ready : List Ent)
    (active : Option Ent) (t : Nat) :
    ∀ seg ∈ preemptAux key procs ready active t,
      t ≤ seg.2.1 ∧ seg.2.1 ≤ seg.2.2 := by
  induction procs, ready, active, t using preemptAux.induct key with
  | case1 procs ready active t newly rest snd hpk hR =>
    intro seg hseg
    rw [preemptAux_eq_nil key procs ready active t snd hpk hR] at hseg
    cases hseg
  | case2 procs ready active t newly rest snd hpk hd tail hR ih =>
    intro seg hseg
    rw [preemptAux_eq_idle key procs ready active t snd hd tail hpk hR] at hseg
    have h2 := ih seg hseg
    omega
  | case3 procs ready active t newly rest cur rdy hpk slice t2 r2 hna ih1 ih2 =>
    intro seg hseg
    have hnae : (procs.dropWhile (fun p => p.arrival ≤ t)).filter
        (fun p => p.arrival ≤ t + sliceOf cur (procs.dropWhile (fun p => p.arrival ≤ t)) t)
        = [] := hna
    by_cases hz : cur.remaining - sliceOf cur (procs.dropWhile (fun p => p.arrival ≤ t)) t = 0
    · rw [preemptAux_eq_noArr0 key procs ready active t cur rdy hpk hnae hz] at hseg
      rcases List.mem_cons.mp hseg with h | h
      · subst h
        dsimp only
        omega
      · have h2 := ih1 seg h
        omega
    · rw [preemptAux_eq_noArrPos key procs ready active t cur rdy hpk hnae hz] at hseg
      rcases List.mem_cons.mp hseg with h | h
      · subst h
        dsimp only
        omega
      · have h2 := ih2 hz seg h
        omega
  | case4 procs ready active t newly rest cur rdy hpk slice t2 hd tail hna hsrt =>
    intro seg hseg
    exfalso
    have hnil := insertionSort_eq_nil hsrt
    simp at hnil
  | case5 procs ready active t newly rest cur rdy hpk slice t2 r2 hd tail hna hd1 tl1 hrq ih1 ih2 ih3 =>
    intro seg hseg
    have hnae : (procs.dropWhile (fun p => p.arrival ≤ t)).filter
        (fun p => p.arrival ≤ t + sliceOf cur (procs.dropWhile (fun p => p.arrival ≤ t)) t)
        = hd :: tail := hna
    by_cases hk : key hd1 < key { cur with remaining :=
        (cur.remaining - sliceOf cur (procs.dropWhile (fun p => p.arrival ≤ t)) t) }
    · rw [preemptAux_eq_preempt key procs ready active t cur rdy hd hd1 tail tl1
        hpk hnae hrq hk] at hseg
      rcases List.mem_cons.mp hseg with h | h
      · subst h
        dsimp only
        omega
      · have h2 := ih1 seg h
        omega
    · by_cases hz : cur.remaining - sliceOf cur (procs.dropWhile (fun p => p.arrival ≤ t)) t = 0
      · rw [preemptAux_eq_noPre0 key procs ready active t cur rdy hd hd1 tail tl1
          hpk hnae hrq hk hz] at hseg
        rcases List.mem_cons.mp hseg with h | h
        · subst h
          dsimp only
          omega
        · have h2 := ih2 seg h
          omega
      · rw [preemptAux_eq_noPrePos key procs ready active t cur rdy hd hd1 tail tl1
          hpk hnae hrq hk hz] at hseg
        rcases List.mem_cons.mp hseg with h | h
        · subst h
          dsimp only
          omega
        · have h2 := ih3 seg h
          omega

theorem preemptAux_chrono (key : Ent → Nat) (procs ready : List Ent)
    (active : Option Ent) (t : Nat) :
    List.Pairwise (fun a b => a.2.2 ≤ b.2.1) (preemptAux key procs ready active t) := by
  induction procs, ready, active, t using preemptAux.induct key with
  | case1 procs ready active t newly rest snd hpk hR =>
    rw [preemptAux_eq_nil key procs ready active t snd hpk hR]
    exact List.Pairwise.nil
  | case2 procs ready active t newly rest snd hpk hd tail hR ih =>
    rw [preemptAux_eq_idle key procs ready active t snd hd tail hpk hR]
    exact ih
  | case3 procs ready active t newly rest cur rdy hpk slice t2 r2 hna ih1 ih2 =>
    have hnae : (procs.dropWhile (fun p => p.arrival ≤ t)).filter
        (fun p => p.arrival ≤ t + sliceOf cur (procs.dropWhile (fun p => p.arrival ≤ t)) t)
        = [] := hna
    by_cases hz : cur.remaining - sliceOf cur (procs.dropWhile (fun p => p.arrival ≤ t)) t = 0
    · rw [preemptAux_eq_noArr0 key procs ready active t cur rdy hpk hnae hz]
      constructor
      · intro seg hseg
        have := (preemptAux_start_ge key _ rdy none _ seg hseg).1
        dsimp only
        omega
      · exact ih1
    · rw [preemptAux_eq_noArrPos key procs ready active t cur rdy hpk hnae hz]
      constructor
      · intro seg hseg
        have := (preemptAux_start_ge key _ rdy _ _ seg hseg).1
        dsimp only
        omega
      · exact ih2 hz
  | case4 procs ready active t newly rest cur rdy hpk slice t2 hd tail hna hsrt =>
    exfalso
    have hnil := insertionSort_eq_nil hsrt
    simp at hnil
  | case5 procs ready active t newly rest cur rdy hpk slice t2 r2 hd tail hna hd1 tl1 hrq ih1 ih2 ih3 =>
    have hnae : (procs.dropWhile (fun p => p.arrival ≤ t)).filter
        (fun p => p.arrival ≤ t + sliceOf cur (procs.dropWhile (fun p => p.arrival ≤ t)) t)
        = hd :: tail := hna
    by_cases hk : key hd1 < key { cur with remaining :=
        (cur.remaining - sliceOf cur (procs.dropWhile (fun p => p.arrival ≤ t)) t) }
    · rw [preemptAux_eq_preempt key procs ready active t cur rdy hd hd1 tail tl1
        hpk hnae hrq hk]
      constructor
      · intro seg hseg
        have := (preemptAux_start_ge key _ _ _ _ seg hseg).1
        dsimp only
        omega
      · exact ih1
    · by_cases hz : cur.remaining - sliceOf cur (procs.dropWhile (fun p => p.arrival ≤ t)) t = 0
      · rw [preemptAux_eq_noPre0 key procs ready active t cur rdy hd hd1 tail tl1
          hpk hnae hrq hk hz]
        constructor
        · intro seg hseg
          have := (preemptAux_start_ge key _ _ _ _ seg hseg).1
          dsimp only
          omega
        · exact ih2
      · rw [preemptAux_eq_noPrePos key procs ready active t cur rdy hd hd1 tail tl1
          hpk hnae hrq hk hz]
        constructor
        · intro seg hseg
          have := (preemptAux_start_ge key _ _ _ _ seg hseg).1
          dsimp only
          omega
        · exact ih3

theorem pickActive_mem {key : Ent → Nat} {active : Option Ent} {rq0 : List Ent}
    {cur : Ent} {rdy : List Ent}
    (h : pickActive key active rq0 = (some cur, rdy)) :
    (cur ∈ rq0 ∨ active = some cur) ∧ ∀ e ∈ rdy, e ∈ rq0 := by
  rcases active with _ | e
  · unfold pickActive at h
    rcases hs : List.insertionSort (entLE key) rq0 with _ | ⟨e, es⟩
    · rw [hs] at h; simp at h
    · rw [hs] at h
      have he : e = cur := congrArg (fun x => (x.1.getD e)) h
      have hr : es = rdy := congrArg Prod.snd h
      have hp := List.perm_insertionSort (entLE key) rq0
      rw [hs, he, hr] at hp
      constructor
      · exact Or.inl (hp.subset (List.mem_cons_self cur rdy))
      · intro e2 he2
        exact hp.subset (List.mem_cons_of_mem cur he2)
  · unfold pickActive at h
    have he : e = cur := congrArg (fun x => (x.1.getD e)) h
    have hr : rq0 = rdy := congrArg Prod.snd h
    subst he
    subst hr
    exact ⟨Or.inr rfl, fun e2 he2 => he2⟩

theorem preemptAux_belongs (key : Ent → Nat) (procs ready : List Ent)
    (active : Option Ent) (t : Nat) :
    (∀ e ∈ ready, e.arrival ≤ t) → (∀ e, active = some e → e.arrival ≤ t) →
    ∀ seg ∈ preemptAux key procs ready active t,
      ∃ e, (e ∈ procs ∨ e ∈ ready ∨ active = some e)
        ∧ seg.1 = e.pid ∧ e.arrival ≤ seg.2.1 := by
  induction procs, ready, active, t using preemptAux.induct key with
  | case1 procs ready active t newly rest snd hpk hR =>
    intro _ _ seg hseg
    rw [preemptAux_eq_nil key procs ready active t snd hpk hR] at hseg
    cases hseg
  | case2 procs ready active t newly rest snd hpk hd tail hR ih =>
    intro _hr _ha seg hseg
    rw [preemptAux_eq_idle key procs ready active t snd hd tail hpk hR] at hseg
    obtain ⟨e, he, h1, h2⟩ := ih (by intro e he; cases he) (by intro e he; cases he) seg hseg
    rcases he with he | he | he
    · exact ⟨e, Or.inl
        ((List.dropWhile_sublist (fun p => decide (p.arrival ≤ t))).subset he), h1, h2⟩
    · cases he
    · cases he
  | case3 procs ready active t newly rest cur rdy hpk slice t2 r2 hna ih1 ih2 =>
    intro hr ha seg hseg
    have hnae : (procs.dropWhile (fun p => p.arrival ≤ t)).filter
        (fun p => p.arrival ≤ t + sliceOf cur (procs.dropWhile (fun p => p.arrival ≤ t)) t)
        = [] := hna
    obtain ⟨hcm, hrm⟩ := pickActive_mem hpk
    have hrq0arr : ∀ e ∈ ready ++ procs.takeWhile (fun p => p.arrival ≤ t),
        e.arrival ≤ t := by
      intro e he
      rcases List.mem_append.mp he with h | h
      · exact hr e h
      · have := List.mem_takeWhile_imp h
        simpa using this
    have hrq0mem : ∀ e ∈ ready ++ procs.takeWhile (fun p => p.arrival ≤ t),
        e ∈ procs ∨ e ∈ ready ∨ active = some e := by
      intro e he
      rcases List.mem_append.mp he with h | h
      · exact Or.inr (Or.inl h)
      · exact Or.inl
          ((List.takeWhile_sublist (fun p => decide (p.arrival ≤ t))).subset h)
    have hcur : (cur ∈ procs ∨ cur ∈ ready ∨ active = some cur) ∧ cur.arrival ≤ t := by
      rcases hcm with h | h
      · exact ⟨hrq0mem cur h, hrq0arr cur h⟩
      · exact ⟨Or.inr (Or.inr h), ha cur h⟩
    have hrdy : ∀ e ∈ rdy,
        (e ∈ procs ∨ e ∈ ready ∨ active = some e)
          ∧ e.arrival ≤ t + sliceOf cur (procs.dropWhile (fun p => p.arrival ≤ t)) t := by
      intro e he
      refine ⟨hrq0mem e (hrm e he), ?_⟩
      have := hrq0arr e (hrm e he)
      omega
    have hpull : ∀ e2,
        (e2 ∈ procs.dropWhile (fun p => p.arrival ≤ t) ∨ e2 ∈ rdy)
        → e2 ∈ procs ∨ e2 ∈ ready ∨ active = some e2 := by
      intro e2 h
      rcases h with h | h
      · exact Or.inl ((List.dropWhile_sublist (fun p => decide (p.arrival ≤ t))).subset h)
      · exact (hrdy e2 h).1
    by_cases hz : cur.remaining - sliceOf cur (procs.dropWhile (fun p => p.arrival ≤ t)) t = 0
    · rw [preemptAux_eq_noArr0 key procs ready active t cur rdy hpk hnae hz] at hseg
      rcases List.mem_cons.mp hseg with h | h
      · subst h
        exact ⟨cur, hcur.1, rfl, hcur.2⟩
      · obtain ⟨e, he, h1, h2⟩ := ih1 (fun e he => (hrdy e he).2)
          (by intro e he; cases he) seg h
        rcases he with he | he | he
        · exact ⟨e, hpull e (Or.inl he), h1, h2⟩
        · exact ⟨e, hpull e (Or.inr he), h1, h2⟩
        · cases he
    · rw [preemptAux_eq_noArrPos key procs ready active t cur rdy hpk hnae hz] at hseg
      rcases List.mem_cons.mp hseg with h | h
      · subst h
        exact ⟨cur, hcur.1, rfl, hcur.2⟩
      · obtain ⟨e, he, h1, h2⟩ := ih2 hz (fun e he => (hrdy e he).2)
          (by intro e he
              injection he with he2
              subst he2
              dsimp only
              have := hcur.2
              omega) seg h
        rcases he with he | he | he
        · exact ⟨e, hpull e (Or.inl he), h1, h2⟩
        · exact ⟨e, hpull e (Or.inr he), h1, h2⟩
        · injection he with he2
          refine ⟨cur, hcur.1, ?_, ?_⟩
          · rw [h1, ← he2]
          · rw [← he2] at h2
            exact h2
  | case4 procs ready active t newly rest cur rdy hpk slice t2 hd tail hna hsrt =>
    intro _ _ seg hseg
    exfalso
    have hnil := insertionSort_eq_nil hsrt
    simp at hnil
  | case5 procs ready active t newly rest cur rdy hpk slice t2 r2 hd tail hna hd1 tl1 hrq ih1 ih2 ih3 =>
    intro hr ha seg hseg
    have hnae : (procs.dropWhile (fun p => p.arrival ≤ t)).filter
        (fun p => p.arrival ≤ t + sliceOf cur (procs.dropWhile (fun p => p.arrival ≤ t)) t)
        = hd :: tail := hna
    obtain ⟨hcm, hrm⟩ := pickActive_mem hpk
    have hrq0arr : ∀ e ∈ ready ++ procs.takeWhile (fun p => p.arrival ≤ t),
        e.arrival ≤ t := by
      intro e he
      rcases List.mem_append.mp he with h | h
      · exact hr e h
      · have := List.mem_takeWhile_imp h
        simpa using this
    have hrq0mem : ∀ e ∈ ready ++ procs.takeWhile (fun p => p.arrival ≤ t),
        e ∈ procs ∨ e ∈ ready ∨ active = some e := by
      intro e he
      rcases List.mem_append.mp he with h | h
      · exact Or.inr (Or.inl h)
      · exact Or.inl
          ((List.takeWhile_sublist (fun p => decide (p.arrival ≤ t))).subset h)
    have hcur : (cur ∈ procs ∨ cur ∈ ready ∨ active = some cur) ∧ cur.arrival ≤ t := by
      rcases hcm with h | h
      · exact ⟨hrq0mem cur h, hrq0arr cur h⟩
      · exact ⟨Or.inr (Or.inr h), ha cur h⟩
    have hna_arr : ∀ e ∈ hd :: tail,
        e.arrival ≤ t + sliceOf cur (procs.dropWhile (fun p => p.arrival ≤ t)) t
          ∧ e ∈ procs := by
      intro e he
      rw [← hnae] at he
      constructor
      · have := List.of_mem_filter he
        simpa using this
      · have := List.mem_of_mem_filter he
        exact (List.dropWhile_sublist (fun p => decide (p.arrival ≤ t))).subset this
    have hperm := List.perm_insertionSort (entLE key) (rdy ++ hd :: tail)
    rw [hrq] at hperm
    have hsortmem : ∀ e ∈ hd1 :: tl1,
        (e ∈ procs ∨ e ∈ ready ∨ active = some e)
          ∧ e.arrival ≤ t + sliceOf cur (procs.dropWhile (fun p => p.arrival ≤ t)) t := by
      intro e he
      have := hperm.subset he
      rcases List.mem_append.mp this with h | h
      · refine ⟨hrq0mem e (hrm e h), ?_⟩
        have := hrq0arr e (hrm e h)
        omega
      · exact ⟨Or.inl (hna_arr e h).2, (hna_arr e h).1⟩
    have hpull2 : ∀ e2,
        (e2 ∈ (procs.dropWhile (fun p => p.arrival ≤ t)).filter
            (fun p => ¬ p.arrival ≤ t + sliceOf cur (procs.dropWhile (fun p => p.arrival ≤ t)) t)
          ∨ e2 ∈ hd1 :: tl1)
        → e2 ∈ procs ∨ e2 ∈ ready ∨ active = some e2 := by
      intro e2 h
      rcases h with h | h
      · have := List.mem_of_mem_filter h
        exact Or.inl ((List.dropWhile_sublist (fun p => decide (p.arrival ≤ t))).subset this)
      · exact (hsortmem e2 h).1
    have hrest2arr : ∀ e ∈ (procs.dropWhile (fun p => p.arrival ≤ t)).filter
        (fun p => ¬ p.arrival ≤ t + sliceOf cur (procs.dropWhile (fun p => p.arrival ≤ t)) t),
        True := fun _ _ => trivial
    by_cases hk : key hd1 < key { cur with remaining :=
        (cur.remaining - sliceOf cur (procs.dropWhile (fun p => p.arrival ≤ t)) t) }
    · rw [preemptAux_eq_preempt key procs ready active t cur rdy hd hd1 tail tl1
        hpk hnae hrq hk] at hseg
      rcases List.mem_cons.mp hseg with h | h
      · subst h
        exact ⟨cur, hcur.1, rfl, hcur.2⟩
      · obtain ⟨e, he, h1, h2⟩ := ih1
          (by
            intro e he
            rcases List.mem_append.mp he with hh | hh
            · exact (hsortmem e (List.mem_cons_of_mem hd1 hh)).2
            · simp only [List.mem_singleton] at hh
              subst hh
              dsimp only
              have := hcur.2
              omega)
          (by
            intro e he
            injection he with he2
            subst he2
            exact (hsortmem hd1 (List.mem_cons_self hd1 tl1)).2) seg h
        rcases he with he | he | he
        · exact ⟨e, hpull2 e (Or.inl he), h1, h2⟩
        · rcases List.mem_append.mp he with hh | hh
          · exact ⟨e, (hsortmem e (List.mem_cons_of_mem hd1 hh)).1, h1, h2⟩
          · simp only [List.mem_singleton] at hh
            subst hh
            refine ⟨cur, hcur.1, h1, ?_⟩
            exact h2
        · injection he with he2
          subst he2
          exact ⟨hd1, (hsortmem hd1 (List.mem_cons_self hd1 tl1)).1, h1, h2⟩
    · by_cases hz : cur.remaining - sliceOf cur (procs.dropWhile (fun p => p.arrival ≤ t)) t = 0
      · rw [preemptAux_eq_noPre0 key procs ready active t cur rdy hd hd1 tail tl1
          hpk hnae hrq hk hz] at hseg
        rcases List.mem_cons.mp hseg with h | h
        · subst h
          exact ⟨cur, hcur.1, rfl, hcur.2⟩
        · obtain ⟨e, he, h1, h2⟩ := ih2
            (fun e he => (hsortmem e he).2)
            (by intro e he; cases he) seg h
          rcases he with he | he | he
          · exact ⟨e, hpull2 e (Or.inl he), h1, h2⟩
          · exact ⟨e, hpull2 e (Or.inr he), h1, h2⟩
          · cases he
      · rw [preemptAux_eq_noPrePos key procs ready active t cur rdy hd hd1 tail tl1
          hpk hnae hrq hk hz] at hseg
        rcases List.mem_cons.mp hseg with h | h
        · subst h
          exact ⟨cur, hcur.1, rfl, hcur.2⟩
        · obtain ⟨e, he, h1, h2⟩ := ih3
            (fun e he => (hsortmem e he).2)
            (by
              intro e he
              injection he with he2
              subst he2
              dsimp only
              have := hcur.2
              omega) seg h
          rcases he with he | he | he
          · exact ⟨e, hpull2 e (Or.inl he), h1, h2⟩
          · exact ⟨e, hpull2 e (Or.inr he), h1, h2⟩
          · injection he with he2
            refine ⟨cur, hcur.1, ?_, ?_⟩
            · rw [h1, ← he2]
            · rw [← he2] at h2
              exact h2

theorem rrAux_sumFor (quantum : Nat) (hq : 1 ≤ quantum) (pid : String)
    (queue : List Process) (t : Nat) :
    sumDurFor pid (rrAux quantum hq queue t) = burstSumFor pid queue := by
  induction queue, t using rrAux.induct quantum hq with
  | case1 t =>
    rw [rrAux_eq_nil]
    rfl
  | case2 t p tail hpos ih =>
    rw [rrAux_eq_requeue quantum hq p tail t hpos, sumDurFor_cons, ih, segDur_mk]
    rw [burstSumFor_append, burstSumFor_cons]
    by_cases hp : p.pid = pid
    · simp only [hp, if_pos]
      simp [burstSumFor, pidW, hp]
      omega
    · simp only [hp, if_neg, not_false_iff]
      simp [burstSumFor, pidW, hp]
  | case3 t p tail hneg ih =>
    rw [rrAux_eq_done quantum hq p tail t hneg, sumDurFor_cons, ih, segDur_mk,
      burstSumFor_cons]
    by_cases hp : p.pid = pid
    · simp only [hp, if_pos]
      omega
    · simp only [hp, if_neg, not_false_iff]

theorem rrAux_start_ge (quantum : Nat) (hq : 1 ≤ quantum) (queue : List Process)
    (t : Nat) :
    ∀ seg ∈ rrAux quantum hq queue t, t ≤ seg.2.1 ∧ seg.2.1 ≤ seg.2.2 := by
  induction queue, t using rrAux.induct quantum hq with
  | case1 t =>
    intro seg hseg
    rw [rrAux_eq_nil] at hseg
    cases hseg
  | case2 t p tail hpos ih =>
    intro seg hseg
    rw [rrAux_eq_requeue quantum hq p tail t hpos] at hseg
    rcases List.mem_cons.mp hseg with h | h
    · subst h
      dsimp only
      constructor
      · exact Nat.le_max_left t p.arrival
      · omega
    · have h2 := ih seg h
      have h3 : t ≤ max t p.arrival := Nat.le_max_left t p.arrival
      omega
  | case3 t p tail hneg ih =>
    intro seg hseg
    rw [rrAux_eq_done quantum hq p tail t hneg] at hseg
    rcases List.mem_cons.mp hseg with h | h
    · subst h
      dsimp only
      constructor
      · exact Nat.le_max_left t p.arrival
      · omega
    · have h2 := ih seg h
      have h3 : t ≤ max t p.arrival := Nat.le_max_left t p.arrival
      omega

theorem rrAux_chrono (quantum : Nat) (hq : 1 ≤ quantum) (queue : List Process)
    (t : Nat) :
    List.Pairwise (fun a b => a.2.2 ≤ b.2.1) (rrAux quantum hq queue t) := by
  induction queue, t using rrAux.induct quantum hq with
  | case1 t =>
    rw [rrAux_eq_nil]
    exact List.Pairwise.nil
  | case2 t p tail hpos ih =>
    rw [rrAux_eq_requeue quantum hq p tail t hpos]
    constructor
    · intro seg hseg
      have := (rrAux_start_ge quantum hq _ _ seg hseg).1
      dsimp only
      omega
    · exact ih
  | case3 t p tail hneg ih =>
    rw [rrAux_eq_done quantum hq p tail t hneg]
    constructor
    · intro seg hseg
      have := (rrAux_start_ge quantum hq _ _ seg hseg).1
      dsimp only
      omega
    · exact ih

theorem rrAux_belongs (quantum : Nat) (hq : 1 ≤ quantum) (queue : List Process)
    (t : Nat) :
    ∀ seg ∈ rrAux quantum hq queue t,
      ∃ p ∈ queue, seg.1 = p.pid ∧ p.arrival ≤ seg.2.1 := by
  induction queue, t using rrAux.induct quantum hq with
  | case1 t =>
    intro seg hseg
    rw [rrAux_eq_nil] at hseg
    cases hseg
  | case2 t p tail hpos ih =>
    intro seg hseg
    rw [rrAux_eq_requeue quantum hq p tail t hpos] at hseg
    rcases List.mem_cons.mp hseg with h | h
    · subst h
      exact ⟨p, List.mem_cons_self p tail, rfl, Nat.le_max_right t p.arrival⟩
    · obtain ⟨e, he, h1, h2⟩ := ih seg h
      rcases List.mem_append.mp he with hh | hh
      · exact ⟨e, List.mem_cons_of_mem p hh, h1, h2⟩
      · simp only [List.mem_singleton] at hh
        subst hh
        exact ⟨p, List.mem_cons_self p tail, h1, h2⟩
  | case3 t p tail hneg ih =>
    intro seg hseg
    rw [rrAux_eq_done quantum hq p tail t hneg] at hseg
    rcases List.mem_cons.mp hseg with h | h
    · subst h
      exact ⟨p, List.mem_cons_self p tail, rfl, Nat.le_max_right t p.arrival⟩
    · obtain ⟨e, he, h1, h2⟩ := ih seg h
      exact ⟨e, List.mem_cons_of_mem p he, h1, h2⟩

theorem rrAux_pids (quantum : Nat) (hq : 1 ≤ quantum) (queue : List Process)
    (t : Nat) :
    ∀ seg ∈ rrAux quantum hq queue t, seg.1 ∈ queue.map (·.pid) := by
  intro seg hseg
  obtain ⟨p, hp, h1, _⟩ := rrAux_belongs quantum hq queue t seg hseg
  rw [h1]
  exact List.mem_map_of_mem (·.pid) hp

theorem rrAux_quantum (quantum : Nat) (hq : 1 ≤ quantum) (queue : List Process)
    (t : Nat) (hnd : (queue.map (·.pid)).Nodup) :
    (∀ seg ∈ rrAux quantum hq queue t, segDur seg ≤ quantum)
      ∧ List.Pairwise (fun a b => a.1 = b.1 → segDur a = quantum)
          (rrAux quantum hq queue t) := by
  induction queue, t using rrAux.induct quantum hq with
  | case1 t =>
    rw [rrAux_eq_nil]
    exact ⟨fun seg hseg => absurd hseg (List.not_mem_nil seg), List.Pairwise.nil⟩
  | case2 t p tail hpos ih =>
    simp only [List.map_cons, List.nodup_cons] at hnd
    have hslice : min quantum p.burst = quantum := by omega
    have hnd2 : ((tail ++ [({ p with burst := p.burst - min quantum p.burst } : Process)]).map
        (fun x => x.pid)).Nodup := by
      have hperm : (tail ++ [({ p with burst := p.burst - min quantum p.burst } : Process)]).Perm
          (({ p with burst := p.burst - min quantum p.burst } : Process) :: tail) :=
        List.perm_append_singleton _ tail
      rw [List.Perm.nodup_iff (hperm.map (fun x => x.pid))]
      simp only [List.map_cons, List.nodup_cons]
      exact ⟨hnd.1, hnd.2⟩
    obtain ⟨ihA, ihB⟩ := ih hnd2
    rw [rrAux_eq_requeue quantum hq p tail t hpos]
    constructor
    · intro seg hseg
      rcases List.mem_cons.mp hseg with h | h
      · subst h
        rw [segDur_mk]
        omega
      · exact ihA seg h
    · constructor
      · intro seg _
        intro _
        rw [segDur_mk]
        omega
      · exact ihB
  | case3 t p tail hneg ih =>
    simp only [List.map_cons, List.nodup_cons] at hnd
    obtain ⟨ihA, ihB⟩ := ih hnd.2
    rw [rrAux_eq_done quantum hq p tail t hneg]
    constructor
    · intro seg hseg
      rcases List.mem_cons.mp hseg with h | h
      · subst h
        rw [segDur_mk]
        omega
      · exact ihA seg h
    · constructor
      · intro seg hseg hpid
        exfalso
        have := rrAux_pids quantum hq tail _ seg hseg
        rw [← hpid] at this
        exact hnd.1 this
      · exact ihB

theorem entsOf_pidW_sum (pid : String) (ps : List Process) :
    ((entsOf ps).map (pidW pid)).sum = burstSumFor pid ps := by
  induction ps with
  | nil => rfl
  | cons p l ih =>
    by_cases h : p.pid = pid
    · simp [entsOf, pidW, burstSumFor, h] at ih ⊢
      omega
    · simp [entsOf, pidW, burstSumFor, h] at ih ⊢
      exact ih

theorem entsOf_mem {ps : List Process} {e : Ent} (h : e ∈ entsOf ps) :
    ∃ p ∈ ps, e.pid = p.pid ∧ e.arrival = p.arrival := by
  unfold entsOf at h
  obtain ⟨p, hp, he⟩ := List.mem_map.mp h
  exact ⟨p, hp, by rw [← he], by rw [← he]⟩

theorem min?_of_ne_nil {ps : List Process} (h : ps ≠ []) :
    ∃ t0, (ps.map (·.arrival)).min? = some t0 := by
  rcases ps with _ | ⟨p, l⟩
  · exact absurd rfl h
  · exact ⟨_, List.min?_cons⟩

theorem schedOK_of (ps : List Process) (sched : Schedule)
    (hnd : (ps.map (·.pid)).Nodup)
    (hchrono : List.Pairwise (fun a b => a.2.2 ≤ b.2.1) sched)
    (hbel : ∀ seg ∈ sched, ∃ p ∈ ps, seg.1 = p.pid ∧ p.arrival ≤ seg.2.1) :
    SchedOK ps sched := by
  constructor
  · exact hchrono.imp (fun h => Or.inl h)
  · intro seg hseg p hp hpid
    obtain ⟨q, hq, h1, h2⟩ := hbel seg hseg
    have : q = p := pid_unique hnd hq hp (by rw [← h1, hpid])
    rw [← this]
    exact h2

/-- Claim C1: for every valid ProcessSet (and quantum at least 1 for Round
Robin), each of the six scheduling functions produces a timeline in which the
total duration attributed to each process equals its burst exactly. -/
theorem claim_C1_conservation (ps : List Process) (quantum : Nat)
    (hv : ValidPS ps) (hq : 1 ≤ quantum) :
    (∀ p ∈ ps, sumDurFor p.pid (fcfs_scheduling ps) = p.burst)
    ∧ (∀ p ∈ ps, sumDurFor p.pid (sjn_scheduling ps) = p.burst)
    ∧ (∀ p ∈ ps, sumDurFor p.pid (priority_scheduling ps) = p.burst)
    ∧ (∀ p ∈ ps, sumDurFor p.pid (round_robin_scheduling ps quantum) = p.burst)
    ∧ (∃ s, sjn_preemptive_scheduling ps = some s
        ∧ ∀ p ∈ ps, sumDurFor p.pid s = p.burst)
    ∧ (∃ s, priority_preemptive_scheduling ps = some s
        ∧ ∀ p ∈ ps, sumDurFor p.pid s = p.burst) := by
  obtain ⟨hne, hnd, _⟩ := hv
  obtain ⟨t0, ht0⟩ := min?_of_ne_nil hne
  refine ⟨?_, ?_, ?_, ?_, ?_, ?_⟩
  · intro p hp
    rw [fcfs_scheduling, fcfsAux_sumFor,
      burstSumFor_perm p.pid (List.perm_insertionSort arrivalLE ps)]
    exact burstSumFor_self ps hnd p hp
  · intro p hp
    rw [sjn_scheduling, sjnAux_sumFor]
    simp only [List.nil_append]
    exact burstSumFor_self ps hnd p hp
  · intro p hp
    rw [priority_scheduling, fcfsAux_sumFor,
      burstSumFor_perm p.pid (List.perm_insertionSort prioArrLE ps)]
    exact burstSumFor_self ps hnd p hp
  · intro p hp
    rw [round_robin_scheduling, dif_pos hq, rrAux_sumFor]
    exact burstSumFor_self ps hnd p hp
  · refine ⟨preemptAux keyRem (entsOf ps) [] none t0, ?_, ?_⟩
    · rw [sjn_preemptive_scheduling, ht0]
    · intro p hp
      rw [preemptAux_sumFor, entsOf_pidW_sum]
      simp only [List.map_nil, List.sum_nil, optW_none, Nat.add_zero]
      exact burstSumFor_self ps hnd p hp
  · refine ⟨preemptAux keyPrio (entsOf ps) [] none t0, ?_, ?_⟩
    · rw [priority_preemptive_scheduling, ht0]
    · intro p hp
      rw [preemptAux_sumFor, entsOf_pidW_sum]
      simp only [List.map_nil, List.sum_nil, optW_none, Nat.add_zero]
      exact burstSumFor_self ps hnd p hp

/-- Claim C2: for every valid ProcessSet (and quantum at least 1), every one
of the six scheduling functions returns a timeline whose segments are pairwise
non-overlapping, with every segment starting no earlier than the arrival of
the process it belongs to. -/
theorem claim_C2_no_overlap (ps : List Process) (quantum : Nat)
    (hv : ValidPS ps) (hq : 1 ≤ quantum) :
    SchedOK ps (fcfs_scheduling ps)
    ∧ SchedOK ps (sjn_scheduling ps)
    ∧ SchedOK ps (priority_scheduling ps)
    ∧ SchedOK ps (round_robin_scheduling ps quantum)
    ∧ (∀ s, sjn_preemptive_scheduling ps = some s → SchedOK ps s)
    ∧ (∀ s, priority_preemptive_scheduling ps = some s → SchedOK ps s) := by
  obtain ⟨hne, hnd, _⟩ := hv
  have hpreempt : ∀ (key : Ent → Nat) (t0 : Nat),
      SchedOK ps (preemptAux key (entsOf ps) [] none t0) := by
    intro key t0
    apply schedOK_of ps _ hnd (preemptAux_chrono key (entsOf ps) [] none t0)
    intro seg hseg
    obtain ⟨e, he, h1, h2⟩ := preemptAux_belongs key (entsOf ps) [] none t0
      (by intro e he; cases he) (by intro e he; cases he) seg hseg
    rcases he with he | he | he
    · obtain ⟨p, hp, hpe, hae⟩ := entsOf_mem he
      exact ⟨p, hp, by rw [h1, hpe], by rw [← hae]; exact h2⟩
    · cases he
    · cases he
  refine ⟨?_, ?_, ?_, ?_, ?_, ?_⟩
  · apply schedOK_of ps _ hnd (fcfsAux_chrono _ 0)
    intro seg hseg
    obtain ⟨p, hp, h1, h2, _⟩ := fcfsAux_belongs _ 0 seg hseg
    exact ⟨p, (List.perm_insertionSort arrivalLE ps).subset hp, h1, h2⟩
  · apply schedOK_of ps _ hnd
      (sjnAux_chrono ps [] 0 (by intro p hp; cases hp))
    intro seg hseg
    obtain ⟨p, hp, h1, h2⟩ := sjnAux_belongs ps [] 0
      (by intro p hp; cases hp) seg hseg
    simp only [List.nil_append] at hp
    exact ⟨p, hp, h1, h2⟩
  · apply schedOK_of ps _ hnd (fcfsAux_chrono _ 0)
    intro seg hseg
    obtain ⟨p, hp, h1, h2, _⟩ := fcfsAux_belongs _ 0 seg hseg
    exact ⟨p, (List.perm_insertionSort prioArrLE ps).subset hp, h1, h2⟩
  · rw [round_robin_scheduling, dif_pos hq]
    apply schedOK_of ps _ hnd (rrAux_chrono quantum hq ps 0)
    intro seg hseg
    exact rrAux_belongs quantum hq ps 0 seg hseg
  · intro s hs
    rw [sjn_preemptive_scheduling] at hs
    obtain ⟨t0, ht0⟩ := min?_of_ne_nil hne
    rw [ht0] at hs
    injection hs with hs2
    rw [← hs2]
    exact hpreempt keyRem t0
  · intro s hs
    rw [priority_preemptive_scheduling] at hs
    obtain ⟨t0, ht0⟩ := min?_of_ne_nil hne
    rw [ht0] at hs
    injection hs with hs2
    rw [← hs2]
    exact hpreempt keyPrio t0

/-- Claim C8: for every valid ProcessSet and quantum at least 1, every Round
Robin segment lasts at most the quantum, and any segment of a process that is
followed by a later segment of the same process lasts exactly the quantum (so
only a process's final segment may be shorter). -/
theorem claim_C8_rr_quantum (ps : List Process) (quantum : Nat)
    (hv : ValidPS ps) (hq : 1 ≤ quantum) :
    (∀ seg ∈ round_robin_scheduling ps quantum, segDur seg ≤ quantum)
    ∧ List.Pairwise (fun a b => a.1 = b.1 → segDur a = quantum)
        (round_robin_scheduling ps quantum) := by
  obtain ⟨_, hnd, _⟩ := hv
  rw [round_robin_scheduling, dif_pos hq]
  exact rrAux_quantum quantum hq ps 0 hnd

theorem sum_map_add {α : Type} (f g : α → Nat) (l : List α) :
    (l.map (fun x => f x + g x)).sum = (l.map f).sum + (l.map g).sum := by
  induction l with
  | nil => rfl
  | cons a l ih =>
    simp only [List.map_cons, List.sum_cons, ih]
    omega

theorem sum_ite_zero (s1 : String) (d : Nat) (pids : List String)
    (h : s1 ∉ pids) :
    (pids.map (fun pid => if s1 = pid then d else 0)).sum = 0 := by
  induction pids with
  | nil => rfl
  | cons a l ih =>
    simp only [List.mem_cons, not_or] at h
    simp only [List.map_cons, List.sum_cons, if_neg h.1, ih h.2]

theorem sum_ite_eq_of_mem (s1 : String) (d : Nat) (pids : List String)
    (hnd : pids.Nodup) (hmem : s1 ∈ pids) :
    (pids.map (fun pid => if s1 = pid then d else 0)).sum = d := by
  induction pids with
  | nil => cases hmem
  | cons a l ih =>
    simp only [List.nodup_cons] at hnd
    rcases List.mem_cons.mp hmem with h | h
    · subst h
      simp only [List.map_cons, List.sum_cons, if_pos rfl,
        sum_ite_zero s1 d l hnd.1]
      simp
    · have hne : ¬ (s1 = a) := by
        intro hc
        subst hc
        exact hnd.1 h
      simp only [List.map_cons, List.sum_cons, if_neg hne, ih hnd.2 h]
      omega

theorem totalDur_eq_sum_over_pids (pids : List String) (sched : Schedule)
    (hnd : pids.Nodup) (hall : ∀ seg ∈ sched, seg.1 ∈ pids) :
    totalDur sched = (pids.map (fun pid => sumDurFor pid sched)).sum := by
  induction sched with
  | nil =>
    have : (pids.map (fun pid => sumDurFor pid ([] : Schedule))) =
        pids.map (fun _ => 0) := rfl
    rw [this]
    simp [totalDur]
  | cons s sched ih =>
    rw [totalDur_cons]
    simp only [sumDurFor_cons]
    rw [sum_map_add, sum_ite_eq_of_mem s.1 (segDur s) pids hnd
      (hall s (List.mem_cons_self s sched)),
      ih (fun seg h => hall seg (List.mem_cons_of_mem s h))]

theorem rrAux_totalDur (quantum : Nat) (hq : 1 ≤ quantum) (queue : List Process)
    (t : Nat) :
    totalDur (rrAux quantum hq queue t) = (queue.map (·.burst)).sum := by
  induction queue, t using rrAux.induct quantum hq with
  | case1 t =>
    rw [rrAux_eq_nil]
    rfl
  | case2 t p tail hpos ih =>
    rw [rrAux_eq_requeue quantum hq p tail t hpos, totalDur_cons, ih, segDur_mk]
    simp only [List.map_append, List.map_cons, List.map_nil, List.sum_append,
      List.sum_cons, List.sum_nil, upd_burst]
    omega
  | case3 t p tail hneg ih =>
    rw [rrAux_eq_done quantum hq p tail t hneg, totalDur_cons, ih, segDur_mk]
    simp only [List.map_cons, List.sum_cons]
    omega

theorem preemptAux_init_totalDur (key : Ent → Nat) (ps : List Process) (t0 : Nat)
    (hnd : (ps.map (·.pid)).Nodup) :
    totalDur (preemptAux key (entsOf ps) [] none t0) = (ps.map (·.burst)).sum := by
  rw [totalDur_eq_sum_over_pids (ps.map (·.pid)) _ hnd]
  · rw [List.map_map]
    have hcongr : ps.map ((fun pid => sumDurFor pid
          (preemptAux key (entsOf ps) [] none t0)) ∘ (·.pid))
        = ps.map (·.burst) := by
      apply List.map_congr_left
      intro p hp
      simp only [Function.comp]
      rw [preemptAux_sumFor, entsOf_pidW_sum]
      simp only [List.map_nil, List.sum_nil, optW_none, Nat.add_zero]
      exact burstSumFor_self ps hnd p hp
    rw [hcongr]
  · intro seg hseg
    obtain ⟨e, he, h1, _⟩ := preemptAux_belongs key (entsOf ps) [] none t0
      (by intro e he; cases he) (by intro e he; cases he) seg hseg
    rcases he with he | he | he
    · obtain ⟨p, hp, hpe, _⟩ := entsOf_mem he
      rw [h1, hpe]
      exact List.mem_map_of_mem (·.pid) hp
    · cases he
    · cases he

/-- Claim C9: for every valid ProcessSet (and quantum at least 1), each of the
six scheduling functions terminates with a finite timeline (in this embedding
every scheduling function is defined by a recursion whose termination is
proved), and the total executed time of that timeline equals the sum of all
bursts, so the work performed is bounded by the total remaining burst. -/
theorem claim_C9_termination (ps : List Process) (quantum : Nat)
    (hv : ValidPS ps) (hq : 1 ≤ quantum) :
    totalDur (fcfs_scheduling ps) = (ps.map (·.burst)).sum
    ∧ totalDur (sjn_scheduling ps) = (ps.map (·.burst)).sum
    ∧ totalDur (priority_scheduling ps) = (ps.map (·.burst)).sum
    ∧ totalDur (round_robin_scheduling ps quantum) = (ps.map (·.burst)).sum
    ∧ (∃ s, sjn_preemptive_scheduling ps = some s
        ∧ totalDur s = (ps.map (·.burst)).sum)
    ∧ (∃ s, priority_preemptive_scheduling ps = some s
        ∧ totalDur s = (ps.map (·.burst)).sum) := by
  obtain ⟨hne, hnd, _⟩ := hv
  obtain ⟨t0, ht0⟩ := min?_of_ne_nil hne
  refine ⟨?_, ?_, ?_, ?_, ?_, ?_⟩
  · rw [fcfs_scheduling, fcfsAux_totalDur,
      ((List.perm_insertionSort arrivalLE ps).map (fun x => x.burst)).sum_eq]
  · rw [sjn_scheduling, sjnAux_totalDur]
    simp
  · rw [priority_scheduling, fcfsAux_totalDur,
      ((List.perm_insertionSort prioArrLE ps).map (fun x => x.burst)).sum_eq]
  · rw [round_robin_scheduling, dif_pos hq, rrAux_totalDur]
  · exact ⟨preemptAux keyRem (entsOf ps) [] none t0,
      by rw [sjn_preemptive_scheduling, ht0],
      preemptAux_init_totalDur keyRem ps t0 hnd⟩
  · exact ⟨preemptAux keyPrio (entsOf ps) [] none t0,
      by rw [priority_preemptive_scheduling, ht0],
      preemptAux_init_totalDur keyPrio ps t0 hnd⟩


/-- Formalization of the SJN dispatch discipline of claim C6: at each decision
point either a process with smallest burst among the arrived not-yet-run
processes is dispatched and runs to completion, or (when no pending process
has arrived) the current time advances directly to the earliest pending
arrival. -/
inductive SjnRun : List Process → Nat → Schedule → Prop where
  | nil (t : Nat) : SjnRun [] t []
  | dispatch (p : Process) (rem rem2 : List Process) (t : Nat) (sched : Schedule) :
      p ∈ rem → p.arrival ≤ t →
      (∀ q ∈ rem, q.arrival ≤ t → p.burst ≤ q.burst) →
      rem2.Perm (rem.erase p) →
      SjnRun rem2 (t + p.burst) sched →
      SjnRun rem t ((p.pid, t, t + p.burst) :: sched)
  | idle (rem : List Process) (t t2 : Nat) (sched : Schedule) :
      rem ≠ [] → (∀ q ∈ rem, t < q.arrival) →
      (∃ q ∈ rem, q.arrival = t2) → (∀ q ∈ rem, t2 ≤ q.arrival) →
      SjnRun rem t2 sched →
      SjnRun rem t sched

theorem sorted_dropWhile_gt (pending : List Process) (t : Nat)
    (hs : List.Sorted arrivalLE pending) :
    ∀ q ∈ pending.dropWhile (fun p => p.arrival ≤ t), ¬ (q.arrival ≤ t) := by
  have hsub : List.Sorted arrivalLE (pending.dropWhile (fun p => p.arrival ≤ t)) :=
    List.Pairwise.sublist (List.dropWhile_sublist _) hs
  generalize hdw : pending.dropWhile (fun p => p.arrival ≤ t) = dw at hsub ⊢
  rcases dw with _ | ⟨r0, rs⟩
  · intro q hq
    cases hq
  · have hr0 : ¬ (r0.arrival ≤ t) := by
      have := dropWhile_head_not (fun p => decide (p.arrival ≤ t)) pending r0 rs hdw
      simpa using this
    intro q hq
    rcases List.mem_cons.mp hq with h | h
    · subst h
      exact hr0
    · have h2 : arrivalLE r0 q := (List.sorted_cons.mp hsub).1 q h
      unfold arrivalLE at h2
      intro hc
      exact hr0 (by omega)

theorem sjnAux_run (pending ready : List Process) (t : Nat) :
    List.Sorted arrivalLE pending → (∀ p ∈ ready, p.arrival ≤ t) →
    SjnRun (ready ++ pending) t (sjnAux pending ready t) := by
  induction pending, ready, t using sjnAux.induct with
  | case1 pending ready t newly rest r tail hsort ih =>
    have hrd : rest = pending.dropWhile (fun q => q.arrival ≤ t) := rfl
    rw [hrd] at ih
    intro hs hr
    rw [sjnAux_eq_dispatch pending ready t r tail hsort]
    have hperm : (ready ++ pending.takeWhile (fun q => q.arrival ≤ t)).Perm (r :: tail) := by
      have hp := List.perm_insertionSort burstLE
        (ready ++ pending.takeWhile (fun q => q.arrival ≤ t))
      rw [hsort] at hp
      exact hp.symm
    have hsorted2 : List.Sorted burstLE (r :: tail) := by
      rw [← hsort]
      exact List.sorted_insertionSort burstLE _
    have harr : ∀ q ∈ ready ++ pending.takeWhile (fun x => x.arrival ≤ t),
        q.arrival ≤ t := by
      intro q hq
      rcases List.mem_append.mp hq with h | h
      · exact hr q h
      · have := List.mem_takeWhile_imp h
        simpa using this
    have hrmem : r ∈ ready ++ pending := by
      have h0 : r ∈ ready ++ pending.takeWhile (fun x => x.arrival ≤ t) :=
        hperm.symm.subset (List.mem_cons_self r tail)
      rcases List.mem_append.mp h0 with h | h
      · exact List.mem_append.mpr (Or.inl h)
      · exact List.mem_append.mpr
          (Or.inr ((List.takeWhile_sublist (fun x => decide (x.arrival ≤ t))).subset h))
    have hrarr : r.arrival ≤ t := harr r (hperm.symm.subset (List.mem_cons_self r tail))
    have hmin : ∀ q ∈ ready ++ pending, q.arrival ≤ t → r.burst ≤ q.burst := by
      intro q hq hqa
      rcases List.mem_append.mp hq with h | h
      · have hq2 : q ∈ r :: tail :=
          hperm.subset (List.mem_append.mpr (Or.inl h))
        rcases List.mem_cons.mp hq2 with hh | hh
        · rw [hh]
        · exact (List.sorted_cons.mp hsorted2).1 q hh
      · rw [← List.takeWhile_append_dropWhile (fun x => decide (x.arrival ≤ t)) pending] at h
        rcases List.mem_append.mp h with hh | hh
        · have hq2 : q ∈ r :: tail :=
            hperm.subset (List.mem_append.mpr (Or.inr hh))
          rcases List.mem_cons.mp hq2 with h3 | h3
          · rw [h3]
          · exact (List.sorted_cons.mp hsorted2).1 q h3
        · exact absurd hqa (sorted_dropWhile_gt pending t hs q hh)
    have htail : ∀ p ∈ tail, p.arrival ≤ t + r.burst := by
      intro p hp
      have := harr p (hperm.symm.subset (List.mem_cons_of_mem r hp))
      omega
    have hperm2 : (tail ++ pending.dropWhile (fun q => q.arrival ≤ t)).Perm
        ((ready ++ pending).erase r) := by
      have hbig : (ready ++ pending).Perm
          ((r :: tail) ++ pending.dropWhile (fun q => q.arrival ≤ t)) := by
        conv_lhs =>
          rw [show ready ++ pending
            = (ready ++ pending.takeWhile (fun q => decide (q.arrival ≤ t)))
              ++ pending.dropWhile (fun q => decide (q.arrival ≤ t)) by
            rw [List.append_assoc, List.takeWhile_append_dropWhile]]
        exact hperm.append_right _
      have herase := hbig.erase r
      rw [List.cons_append, List.erase_cons_head] at herase
      exact herase.symm
    have hsrest : List.Sorted arrivalLE (pending.dropWhile (fun q => q.arrival ≤ t)) :=
      List.Pairwise.sublist (List.dropWhile_sublist _) hs
    exact SjnRun.dispatch r (ready ++ pending) _ t _ hrmem hrarr hmin hperm2
      (ih hsrest htail)
  | case2 pending ready t newly rest hsort r tail hrest ih =>
    have hrd : rest = pending.dropWhile (fun q => q.arrival ≤ t) := rfl
    rw [hrd] at ih
    intro hs _hr
    rw [sjnAux_eq_idle pending ready t r tail hsort hrest]
    have hnil := insertionSort_eq_nil hsort
    have hready : ready = [] := (List.append_eq_nil.mp hnil).1
    have htw : pending.takeWhile (fun q => decide (q.arrival ≤ t)) = [] :=
      (List.append_eq_nil.mp hnil).2
    have hpd : pending.dropWhile (fun q => decide (q.arrival ≤ t)) = pending :=
      dropWhile_eq_self_of_takeWhile_nil _ _ htw
    subst hready
    obtain ⟨tl2, hpend⟩ : ∃ tl2, pending = r :: tl2 := ⟨tail, by rw [← hpd]; exact hrest⟩
    have hgt : ∀ q ∈ pending, t < q.arrival := by
      intro q hq
      have h2 := sorted_dropWhile_gt pending t hs q (by rw [hpd]; exact hq)
      omega
    have hminarr : ∀ q ∈ pending, r.arrival ≤ q.arrival := by
      intro q hq
      rw [hpend] at hq hs
      rcases List.mem_cons.mp hq with h | h
      · rw [h]
      · exact (List.sorted_cons.mp hs).1 q h
    have hsrest : List.Sorted arrivalLE (pending.dropWhile (fun q => q.arrival ≤ t)) := by
      rw [hpd]
      exact hs
    have hrun := ih hsrest (by intro p hp; cases hp)
    rw [hpd] at hrun
    simp only [List.nil_append] at hrun ⊢
    rw [hpd]
    exact SjnRun.idle pending t r.arrival _ (by rw [hpend]; simp) hgt
      ⟨r, by rw [hpend]; exact List.mem_cons_self r tl2, rfl⟩ hminarr hrun
  | case3 pending ready t newly rest hsort hrest =>
    intro _hs _hr
    rw [sjnAux_eq_nil pending ready t hsort hrest]
    have hnil := insertionSort_eq_nil hsort
    have hready : ready = [] := (List.append_eq_nil.mp hnil).1
    have htw : pending.takeWhile (fun q => decide (q.arrival ≤ t)) = [] :=
      (List.append_eq_nil.mp hnil).2
    have hrd : pending.dropWhile (fun q => decide (q.arrival ≤ t)) = [] := hrest
    have hpend : pending = [] := by
      have hs2 := List.takeWhile_append_dropWhile (fun q => decide (q.arrival ≤ t)) pending
      rw [htw, hrd] at hs2
      simpa using hs2.symm
    rw [hready, hpend]
    exact SjnRun.nil t

def refPs : List Process :=
  [⟨"P1", 0, 24, 1⟩, ⟨"P2", 1, 3, 1⟩, ⟨"P3", 2, 3, 1⟩]

def c6A : Process := ⟨"A", 5, 10, 1⟩

def c6B : Process := ⟨"B", 0, 1, 1⟩

theorem sjn_c6_eval : sjn_scheduling [c6A, c6B] = [("B", 5, 6), ("A", 6, 16)] := by
  have e0 : sjn_scheduling [c6A, c6B] = sjnAux [c6A, c6B] [] 0 := rfl
  rw [e0, sjnAux_eq_idle [c6A, c6B] [] 0 c6A [c6B] (by decide) (by decide)]
  show sjnAux [c6A, c6B] [] 5 = _
  rw [sjnAux_eq_dispatch [c6A, c6B] [] 5 c6B [c6A] (by decide)]
  show ("B", 5, 6) :: sjnAux [] [c6A] 6 = _
  rw [sjnAux_eq_dispatch [] [c6A] 6 c6A [] (by decide)]
  show ("B", 5, 6) :: ("A", 6, 16) :: sjnAux [] [] 16 = _
  rw [sjnAux_eq_nil [] [] 16 (by decide) (by decide)]

theorem sjnRun_first_start (rem : List Process) (t : Nat) (sched : Schedule)
    (h : SjnRun rem t sched) (q : Process) (hq : q ∈ rem) (ha : q.arrival ≤ t) :
    ∃ s rest, sched = s :: rest ∧ s.2.1 = t := by
  induction h with
  | nil t => cases hq
  | dispatch p rem rem2 t sched hmem harr hmin hperm hrec ih =>
    exact ⟨(p.pid, t, t + p.burst), sched, rfl, rfl⟩
  | idle rem t t2 sched hne hgt hex hmin hrec ih =>
    exact absurd ha (by have := hgt q hq; omega)

/-- Counterexample to claim C6 as stated: on the arrival-unsorted input
consisting of A (arrival 5, burst 10) and B (arrival 0, burst 1),
sjn_scheduling leaves the CPU idle from time 0 to time 5 even though B is
available at time 0, so the produced timeline does not satisfy the SJN
dispatch discipline SjnRun. -/
theorem claim_C6_counterexample :
    sjn_scheduling [c6A, c6B] = [("B", 5, 6), ("A", 6, 16)]
    ∧ ¬ SjnRun [c6A, c6B] 0 (sjn_scheduling [c6A, c6B]) := by
  refine ⟨sjn_c6_eval, ?_⟩
  rw [sjn_c6_eval]
  intro h
  obtain ⟨s, rest, heq, hst⟩ :=
    sjnRun_first_start _ _ _ h c6B (by decide) (by decide)
  injection heq with h1 h2
  rw [← h1] at hst
  exact absurd hst (by decide)

/-- Claim C6 (amended): sjn_scheduling realises the non-preemptive SJN
discipline — repeatedly running, among arrived not-yet-executed processes, one
with the smallest burst to completion, and jumping to the earliest pending
arrival when none has arrived — provided the input ProcessSet is sorted by
arrival time; the unamended claim fails on arrival-unsorted input. -/
theorem claim_C6_sjn_discipline (ps : List Process) (hv : ValidPS ps)
    (hs : List.Sorted arrivalLE ps) :
    SjnRun ps 0 (sjn_scheduling ps) := by
  have h := sjnAux_run ps [] 0 hs (by intro p hp; cases hp)
  rw [sjn_scheduling]
  simpa using h

theorem claim_C6_witness :
    (ValidPS refPs ∧ List.Sorted arrivalLE refPs)
    ∧ SjnRun refPs 0 (sjn_scheduling refPs) :=
  ⟨⟨by decide, by decide⟩, claim_C6_sjn_discipline refPs (by decide) (by decide)⟩
theorem preemptAux_solo (key : Ent → Nat) (pid : String) (a orig prio : Nat) :
    ∀ r t, 1 ≤ r →
    preemptAux key [] [] (some ⟨pid, a, r, orig, prio⟩) t
      = (List.range r).map (fun i => (pid, t + i, t + i + 1)) := by
  intro r
  induction r with
  | zero => intro t h; omega
  | succ r ih =>
    intro t _
    have hs1 : sliceOf ⟨pid, a, r + 1, orig, prio⟩
        (([] : List Ent).dropWhile (fun p => p.arrival ≤ t)) t = 1 := by
      rw [sliceOf_eq]
      simp
    rcases Nat.eq_zero_or_pos r with hr | hr
    · subst hr
      rw [preemptAux_eq_noArr0 key [] [] (some ⟨pid, a, 1, orig, prio⟩) t
        ⟨pid, a, 1, orig, prio⟩ [] rfl rfl (by rw [hs1]; simp)]
      rw [hs1]
      simp only [List.dropWhile_nil]
      rw [preemptAux_eq_nil key [] [] none (t + 1) [] rfl rfl]
      simp [List.range_succ]
    · rw [preemptAux_eq_noArrPos key [] [] (some ⟨pid, a, r + 1, orig, prio⟩) t
        ⟨pid, a, r + 1, orig, prio⟩ [] rfl rfl (by rw [hs1]; simp; omega)]
      rw [hs1]
      simp only [List.dropWhile_nil]
      have hupd : ({ (⟨pid, a, r + 1, orig, prio⟩ : Ent) with
          remaining := (⟨pid, a, r + 1, orig, prio⟩ : Ent).remaining - 1 } : Ent)
          = ⟨pid, a, r, orig, prio⟩ := by
        simp [Ent.mk.injEq]
      rw [hupd, ih (t + 1) hr]
      rw [List.range_succ_eq_map]
      simp only [List.map_cons, List.map_map]
      refine congrArg₂ _ (by simp) ?_
      apply List.map_congr_left
      intro i _
      simp only [Function.comp_apply, Prod.mk.injEq, eq_self_iff_true, true_and]
      omega

theorem preempt_single_run (key : Ent → Nat) (pid : String) (a b orig prio : Nat)
    (hb : 1 ≤ b) :
    preemptAux key [⟨pid, a, b, orig, prio⟩] [] none a
      = (List.range b).map (fun i => (pid, a + i, a + i + 1)) := by
  obtain ⟨b2, rfl⟩ : ∃ b2, b = b2 + 1 := ⟨b - 1, by omega⟩
  have htw : ([⟨pid, a, b2 + 1, orig, prio⟩] : List Ent).takeWhile
      (fun p => p.arrival ≤ a) = [⟨pid, a, b2 + 1, orig, prio⟩] := by
    simp [List.takeWhile_cons]
  have hdw : ([⟨pid, a, b2 + 1, orig, prio⟩] : List Ent).dropWhile
      (fun p => p.arrival ≤ a) = [] := by
    simp [List.dropWhile_cons]
  have hpk : pickActive key none
      ([] ++ ([⟨pid, a, b2 + 1, orig, prio⟩] : List Ent).takeWhile
        (fun p => p.arrival ≤ a))
      = (some ⟨pid, a, b2 + 1, orig, prio⟩, []) := by
    rw [htw]
    rfl
  have hs1 : sliceOf ⟨pid, a, b2 + 1, orig, prio⟩
      (([⟨pid, a, b2 + 1, orig, prio⟩] : List Ent).dropWhile
        (fun p => p.arrival ≤ a)) a = 1 := by
    rw [sliceOf_eq]
    simp
  rcases Nat.eq_zero_or_pos b2 with hb2 | hb2
  · subst hb2
    rw [preemptAux_eq_noArr0 key [⟨pid, a, 1, orig, prio⟩] [] none a
      ⟨pid, a, 1, orig, prio⟩ [] hpk (by rw [hdw]; rfl) (by rw [hs1]; simp)]
    rw [hs1, hdw]
    rw [preemptAux_eq_nil key [] [] none (a + 1) [] rfl rfl]
    simp [List.range_succ]
  · rw [preemptAux_eq_noArrPos key [⟨pid, a, b2 + 1, orig, prio⟩] [] none a
      ⟨pid, a, b2 + 1, orig, prio⟩ [] hpk (by rw [hdw]; rfl)
      (by rw [hs1]; simp; omega)]
    rw [hs1, hdw]
    have hupd : ({ (⟨pid, a, b2 + 1, orig, prio⟩ : Ent) with
        remaining := (⟨pid, a, b2 + 1, orig, prio⟩ : Ent).remaining - 1 } : Ent)
        = ⟨pid, a, b2, orig, prio⟩ := by
      simp [Ent.mk.injEq]
    rw [hupd, preemptAux_solo key pid a orig prio b2 (a + 1) hb2]
    rw [List.range_succ_eq_map]
    simp only [List.map_cons, List.map_map]
    refine congrArg₂ _ (by simp) ?_
    apply List.map_congr_left
    intro i _
    simp only [Function.comp_apply, Prod.mk.injEq, eq_self_iff_true, true_and]
    omega

theorem fcfs_single (pid : String) (a b prio : Nat) :
    fcfs_scheduling [⟨pid, a, b, prio⟩] = [(pid, a, a + b)] := by
  rw [fcfs_scheduling]
  have hs : List.insertionSort arrivalLE [(⟨pid, a, b, prio⟩ : Process)]
      = [⟨pid, a, b, prio⟩] := rfl
  rw [hs]
  simp [fcfsAux]

theorem priority_single (pid : String) (a b prio : Nat) :
    priority_scheduling [⟨pid, a, b, prio⟩] = [(pid, a, a + b)] := by
  rw [priority_scheduling]
  have hs : List.insertionSort prioArrLE [(⟨pid, a, b, prio⟩ : Process)]
      = [⟨pid, a, b, prio⟩] := rfl
  rw [hs]
  simp [fcfsAux]

theorem sjn_single (pid : String) (a b prio : Nat) :
    sjn_scheduling [⟨pid, a, b, prio⟩] = [(pid, a, a + b)] := by
  rw [sjn_scheduling]
  have hdisp : ∀ t : Nat, a ≤ t →
      sjnAux [⟨pid, a, b, prio⟩] [] t = [(pid, t, t + b)] := by
    intro t ht
    have htw : ([⟨pid, a, b, prio⟩] : List Process).takeWhile
        (fun q => q.arrival ≤ t) = [⟨pid, a, b, prio⟩] := by
      simp [List.takeWhile_cons]
      exact ht
    have hdw : ([⟨pid, a, b, prio⟩] : List Process).dropWhile
        (fun q => q.arrival ≤ t) = [] := by
      simp [List.dropWhile_cons]
      exact ht
    rw [sjnAux_eq_dispatch [⟨pid, a, b, prio⟩] [] t ⟨pid, a, b, prio⟩ []
      (by rw [htw]; rfl)]
    rw [hdw]
    rw [sjnAux_eq_nil [] [] (t + (⟨pid, a, b, prio⟩ : Process).burst) rfl rfl]
  rcases Nat.eq_zero_or_pos a with ha | ha
  · subst ha
    exact hdisp 0 (Nat.le_refl 0)
  · have htw0 : ([⟨pid, a, b, prio⟩] : List Process).takeWhile
        (fun q => q.arrival ≤ 0) = [] := by
      simp [List.takeWhile_cons]
      omega
    have hdw0 : ([⟨pid, a, b, prio⟩] : List Process).dropWhile
        (fun q => q.arrival ≤ 0) = [⟨pid, a, b, prio⟩] := by
      simp [List.dropWhile_cons]
      omega
    rw [sjnAux_eq_idle [⟨pid, a, b, prio⟩] [] 0 ⟨pid, a, b, prio⟩ []
      (by rw [htw0]; rfl) hdw0]
    rw [hdw0]
    exact hdisp a (Nat.le_refl a)

theorem rr_single (pid : String) (a b prio quantum : Nat) (hb : 1 ≤ b)
    (hbq : b ≤ quantum) :
    round_robin_scheduling [⟨pid, a, b, prio⟩] quantum = [(pid, a, a + b)] := by
  have hq : 1 ≤ quantum := le_trans hb hbq
  rw [round_robin_scheduling, dif_pos hq]
  have hmin : min quantum (⟨pid, a, b, prio⟩ : Process).burst = b :=
    Nat.min_eq_right hbq
  rw [rrAux_eq_done quantum hq ⟨pid, a, b, prio⟩ [] 0
    (by rw [hmin]; show ¬ 0 < b - b; omega)]
  rw [rrAux_eq_nil quantum hq _]
  rw [hmin]
  simp

/-- Counterexample to claim C5 as stated: for the single process P1 of arrival
0 and burst 2, the preemptive SJN scheduler returns two unit segments
[("P1",0,1), ("P1",1,2)] rather than the single segment [0,2), because the
source loop always slices execution into steps of length 1 and records each
step as its own timeline segment. -/
theorem claim_C5_counterexample :
    sjn_preemptive_scheduling [⟨"P1", 0, 2, 1⟩]
      = some [("P1", 0, 1), ("P1", 1, 2)]
    ∧ ∀ s, sjn_preemptive_scheduling [⟨"P1", 0, 2, 1⟩] = some s
        → ¬ s.length = 1 := by
  have h := preempt_single_run keyRem "P1" 0 2 2 1 (by omega)
  have h1 : sjn_preemptive_scheduling [⟨"P1", 0, 2, 1⟩]
      = some [("P1", 0, 1), ("P1", 1, 2)] := by
    show some (preemptAux keyRem [⟨"P1", 0, 2, 2, 1⟩] [] none 0) = _
    rw [h]
    rfl
  refine ⟨h1, ?_⟩
  intro s hs
  rw [h1] at hs
  injection hs with hs2
  rw [← hs2]
  decide

/-- Claim C5 (amended): for a ProcessSet with exactly one process of arrival a
and burst b ≥ 1, the three non-preemptive policies and Round Robin (when
b ≤ quantum) produce the single segment [a, a+b); the two preemptive policies
instead produce b unit segments (a+i, a+i+1) for i < b covering [a, a+b), so
the unamended single-segment claim fails for them whenever b ≥ 2, and it also
fails for Round Robin when quantum < b. -/
theorem claim_C5_single_process (pid : String) (a b prio quantum : Nat)
    (hb : 1 ≤ b) (hbq : b ≤ quantum) :
    fcfs_scheduling [⟨pid, a, b, prio⟩] = [(pid, a, a + b)]
    ∧ sjn_scheduling [⟨pid, a, b, prio⟩] = [(pid, a, a + b)]
    ∧ priority_scheduling [⟨pid, a, b, prio⟩] = [(pid, a, a + b)]
    ∧ round_robin_scheduling [⟨pid, a, b, prio⟩] quantum = [(pid, a, a + b)]
    ∧ sjn_preemptive_scheduling [⟨pid, a, b, prio⟩]
        = some ((List.range b).map (fun i => (pid, a + i, a + i + 1)))
    ∧ priority_preemptive_scheduling [⟨pid, a, b, prio⟩]
        = some ((List.range b).map (fun i => (pid, a + i, a + i + 1))) := by
  have hmin : (([⟨pid, a, b, prio⟩] : List Process).map (·.arrival)).min? = some a := by
    simp [List.min?]
  refine ⟨fcfs_single pid a b prio, sjn_single pid a b prio,
    priority_single pid a b prio, rr_single pid a b prio quantum hb hbq, ?_, ?_⟩
  · rw [sjn_preemptive_scheduling, hmin]
    show some (preemptAux keyRem [⟨pid, a, b, b, prio⟩] [] none a) = _
    rw [preempt_single_run keyRem pid a b b prio hb]
  · rw [priority_preemptive_scheduling, hmin]
    show some (preemptAux keyPrio [⟨pid, a, b, b, prio⟩] [] none a) = _
    rw [preempt_single_run keyPrio pid a b b prio hb]

theorem claim_C5_witness :
    (1 ≤ 2 ∧ 2 ≤ 3)
    ∧ (fcfs_scheduling [⟨"X", 3, 2, 1⟩] = [("X", 3, 3 + 2)]
      ∧ sjn_scheduling [⟨"X", 3, 2, 1⟩] = [("X", 3, 3 + 2)]
      ∧ priority_scheduling [⟨"X", 3, 2, 1⟩] = [("X", 3, 3 + 2)]
      ∧ round_robin_scheduling [⟨"X", 3, 2, 1⟩] 3 = [("X", 3, 3 + 2)]
      ∧ sjn_preemptive_scheduling [⟨"X", 3, 2, 1⟩]
          = some ((List.range 2).map (fun i => ("X", 3 + i, 3 + i + 1)))
      ∧ priority_preemptive_scheduling [⟨"X", 3, 2, 1⟩]
          = some ((List.range 2).map (fun i => ("X", 3 + i, 3 + i + 1)))) :=
  ⟨⟨by omega, by omega⟩, claim_C5_single_process "X" 3 2 1 3 (by omega) (by omega)⟩

/-- Claim C7: on the reference ProcessSet P1(0,24,1), P2(1,3,1), P3(2,3,1),
FCFS returns exactly the segments P1[0,24), P2[24,27), P3[27,30), and
calculate_waiting_time reports average waiting time 16 for that timeline
(waiting times 0, 23, 25). -/
theorem claim_C7_reference :
    fcfs_scheduling refPs = [("P1", 0, 24), ("P2", 24, 27), ("P3", 27, 30)]
    ∧ ∃ m, calculate_waiting_time
        [("P1", 0, 24), ("P2", 24, 27), ("P3", 27, 30)] refPs = some m
        ∧ m.2.1 = 16 := by
  refine ⟨by decide, ?_⟩
  refine ⟨([("P1", (0 : Int)), ("P2", 23), ("P3", 25)],
    avgOf [("P1", 0), ("P2", 23), ("P3", 25)],
    [("P1", (24 : Int)), ("P2", 26), ("P3", 28)],
    avgOf [("P1", 24), ("P2", 26), ("P3", 28)],
    [("P1", (0 : Int)), ("P2", 23), ("P3", 25)],
    avgOf [("P1", 0), ("P2", 23), ("P3", 25)]), ?_, ?_⟩
  · rfl
  · show avgOf [("P1", 0), ("P2", 23), ("P3", 25)] = 16
    rw [avgOf]
    norm_num

theorem dictUpsert_ne_nil {α : Type} (d : List (String × α)) (k : String) (v : α) :
    dictUpsert d k v ≠ [] := by
  cases d with
  | nil => simp [dictUpsert]
  | cons kv d =>
    rw [dictUpsert]
    split <;> simp

theorem foldl_dictUpsert_ne_nil {α : Type} (f : Process → α) (ps : List Process) :
    ∀ d : List (String × α), ps ≠ [] ∨ d ≠ [] →
    ps.foldl (fun d p => dictUpsert d p.pid (f p)) d ≠ [] := by
  induction ps with
  | nil =>
    intro d h
    rcases h with h | h
    · exact absurd rfl h
    · simpa using h
  | cons p ps ih =>
    intro d _
    rw [List.foldl_cons]
    exact ih (dictUpsert d p.pid (f p)) (Or.inr (dictUpsert_ne_nil d p.pid (f p)))

theorem cwt_empty_sched_none (ps : List Process) (p : Process) (hp : p ∈ ps) :
    calculate_waiting_time [] ps = none := by
  have hne : ps.foldl (fun d q => dictUpsert d q.pid q.arrival) [] ≠ [] :=
    foldl_dictUpsert_ne_nil (fun q => q.arrival) ps []
      (Or.inl (List.ne_nil_of_mem hp))
  obtain ⟨kv, pdt, hpd⟩ := List.exists_cons_of_ne_nil hne
  rw [calculate_waiting_time]
  simp only [hpd, List.foldl_nil, List.mapM, List.mapM.loop, dictGet,
    Option.map_none, Option.bind_none]
  rfl

theorem cpwt_empty_sched_none (ps : List Process) (p : Process) (hp : p ∈ ps) :
    calculate_preemptive_waiting_time [] ps = none := by
  have hne : ps.foldl (fun d q => dictUpsert d q.pid (q.arrival, q.burst)) [] ≠ [] :=
    foldl_dictUpsert_ne_nil (fun q => (q.arrival, q.burst)) ps []
      (Or.inl (List.ne_nil_of_mem hp))
  obtain ⟨kv, pdt, hpd⟩ := List.exists_cons_of_ne_nil hne
  rw [calculate_preemptive_waiting_time]
  simp only [hpd, List.foldl_nil, List.mapM, List.mapM.loop, dictGet,
    Option.map_none, Option.bind_none]
  rfl

/-- Counterexample to claim C3 as stated: with an empty timeline but a
non-empty ProcessSet, the contiguous-run calculator fails with a KeyError
(none) instead of returning an all-zero report, and run_simulation on an
empty ProcessSet fails with an IndexError on `schedule[-1]` (none) before
reaching the guarded cpu-utilization branch. -/
theorem claim_C3_counterexample :
    calculate_waiting_time [] [⟨"P1", 0, 5, 1⟩] = none
    ∧ calculate_preemptive_waiting_time [] [⟨"P1", 0, 5, 1⟩] = none
    ∧ run_simulation [] "FCFS" 2 = none :=
  ⟨rfl, rfl, rfl⟩

/-- Claim C3 (amended): the only explicit guard is the `if d else 0` in the
average computation, so with BOTH the timeline and the ProcessSet empty each
calculator returns an all-zero report; but with an empty timeline and a
non-empty ProcessSet both calculators fail with a KeyError (none), and
run_simulation with an empty ProcessSet fails with an IndexError on
`schedule[-1]` (none) rather than producing an all-zero report. -/
theorem claim_C3_empty_guard (ps : List Process) (p : Process) (quantum : Nat)
    (hp : p ∈ ps) :
    calculate_waiting_time [] [] = some ([], 0, [], 0, [], 0)
    ∧ calculate_preemptive_waiting_time [] [] = some ([], 0, [], 0, [], 0)
    ∧ calculate_waiting_time [] ps = none
    ∧ calculate_preemptive_waiting_time [] ps = none
    ∧ run_simulation [] "FCFS" quantum = none := by
  refine ⟨rfl, rfl, cwt_empty_sched_none ps p hp, cpwt_empty_sched_none ps p hp, rfl⟩

theorem claim_C3_witness :
    (⟨"P1", 0, 5, 1⟩ : Process) ∈ [(⟨"P1", 0, 5, 1⟩ : Process)]
    ∧ (calculate_waiting_time [] [] = some ([], 0, [], 0, [], 0)
      ∧ calculate_preemptive_waiting_time [] [] = some ([], 0, [], 0, [], 0)
      ∧ calculate_waiting_time [] [⟨"P1", 0, 5, 1⟩] = none
      ∧ calculate_preemptive_waiting_time [] [⟨"P1", 0, 5, 1⟩] = none
      ∧ run_simulation [] "FCFS" 7 = none) :=
  ⟨by decide,
    claim_C3_empty_guard [⟨"P1", 0, 5, 1⟩] ⟨"P1", 0, 5, 1⟩ 7 (by decide)⟩

/-- Counterexample to claim C4 as stated: run_simulation performs no input
validation, so the invalid ProcessSet consisting of one process with burst 0
(and likewise one with duplicate ids) is not rejected: the call succeeds and
returns a schedule instead of an error. -/
theorem claim_C4_counterexample :
    (run_simulation [⟨"P1", 0, 0, 1⟩] "FCFS" 2).isSome = true
    ∧ (run_simulation [⟨"P1", 0, 5, 1⟩, ⟨"P1", 1, 5, 1⟩] "FCFS" 2).isSome = true :=
  ⟨rfl, rfl⟩

/-- Claim C4 (amended): there is no input validation anywhere — run_simulation
never rejects an invalid ProcessSet before scheduling: it succeeds on a
burst-0 process and on duplicate ids, and the scheduling functions themselves
are invoked on such input (a burst-0 process yields a zero-length segment in
the FCFS timeline rather than an error); only an unknown algorithm name makes
run_simulation fail. -/
theorem claim_C4_no_validation (ps : List Process) (p : Process) (quantum : Nat)
    (hp : p ∈ ps) (hb : p.burst = 0) :
    (∃ s, (p.pid, s, s) ∈ fcfs_scheduling ps)
    ∧ (run_simulation [⟨"P1", 0, 0, 1⟩] "FCFS" 2).isSome = true
    ∧ (run_simulation [⟨"P1", 0, 5, 1⟩, ⟨"P1", 1, 5, 1⟩] "FCFS" 2).isSome = true
    ∧ run_simulation ps "Bogus" quantum = none := by
  refine ⟨?_, rfl, rfl, rfl⟩
  obtain ⟨s, hs⟩ := fcfsAux_mem p (List.insertionSort arrivalLE ps) 0
    ((List.perm_insertionSort arrivalLE ps).symm.subset hp)
  rw [hb, Nat.add_zero] at hs
  exact ⟨s, by rw [fcfs_scheduling]; exact hs⟩

theorem claim_C4_witness :
    ((⟨"Z", 0, 0, 3⟩ : Process) ∈ [(⟨"Z", 0, 0, 3⟩ : Process)]
      ∧ (⟨"Z", 0, 0, 3⟩ : Process).burst = 0)
    ∧ ((∃ s, ("Z", s, s) ∈ fcfs_scheduling [⟨"Z", 0, 0, 3⟩])
      ∧ (run_simulation [⟨"P1", 0, 0, 1⟩] "FCFS" 2).isSome = true
      ∧ (run_simulation [⟨"P1", 0, 5, 1⟩, ⟨"P1", 1, 5, 1⟩] "FCFS" 2).isSome = true
      ∧ run_simulation [⟨"Z", 0, 0, 3⟩] "Bogus" 4 = none) :=
  ⟨⟨by decide, by decide⟩,
    claim_C4_no_validation [⟨"Z", 0, 0, 3⟩] ⟨"Z", 0, 0, 3⟩ 4 (by decide) (by decide)⟩

theorem claim_C1_witness :
    (ValidPS refPs ∧ 1 ≤ 2)
    ∧ ((∀ p ∈ refPs, sumDurFor p.pid (fcfs_scheduling refPs) = p.burst)
      ∧ (∀ p ∈ refPs, sumDurFor p.pid (sjn_scheduling refPs) = p.burst)
      ∧ (∀ p ∈ refPs, sumDurFor p.pid (priority_scheduling refPs) = p.burst)
      ∧ (∀ p ∈ refPs, sumDurFor p.pid (round_robin_scheduling refPs 2) = p.burst)
      ∧ (∃ s, sjn_preemptive_scheduling refPs = some s
          ∧ ∀ p ∈ refPs, sumDurFor p.pid s = p.burst)
      ∧ (∃ s, priority_preemptive_scheduling refPs = some s
          ∧ ∀ p ∈ refPs, sumDurFor p.pid s = p.burst)) :=
  ⟨⟨by decide, by decide⟩, claim_C1_conservation refPs 2 (by decide) (by decide)⟩

theorem claim_C2_witness :
    (ValidPS refPs ∧ 1 ≤ 2)
    ∧ (SchedOK refPs (fcfs_scheduling refPs)
      ∧ SchedOK refPs (sjn_scheduling refPs)
      ∧ SchedOK refPs (priority_scheduling refPs)
      ∧ SchedOK refPs (round_robin_scheduling refPs 2)
      ∧ (∀ s, sjn_preemptive_scheduling refPs = some s → SchedOK refPs s)
      ∧ (∀ s, priority_preemptive_scheduling refPs = some s → SchedOK refPs s)) :=
  ⟨⟨by decide, by decide⟩, claim_C2_no_overlap refPs 2 (by decide) (by decide)⟩

theorem claim_C8_witness :
    (ValidPS refPs ∧ 1 ≤ 2)
    ∧ ((∀ seg ∈ round_robin_scheduling refPs 2, segDur seg ≤ 2)
      ∧ List.Pairwise (fun a b => a.1 = b.1 → segDur a = 2)
          (round_robin_scheduling refPs 2)) :=
  ⟨⟨by decide, by decide⟩, claim_C8_rr_quantum refPs 2 (by decide) (by decide)⟩

theorem claim_C9_witness :
    (ValidPS refPs ∧ 1 ≤ 2)
    ∧ (totalDur (fcfs_scheduling refPs) = (refPs.map (·.burst)).sum
      ∧ totalDur (sjn_scheduling refPs) = (refPs.map (·.burst)).sum
      ∧ totalDur (priority_scheduling refPs) = (refPs.map (·.burst)).sum
      ∧ totalDur (round_robin_scheduling refPs 2) = (refPs.map (·.burst)).sum
      ∧ (∃ s, sjn_preemptive_scheduling refPs = some s
          ∧ totalDur s = (refPs.map (·.burst)).sum)
      ∧ (∃ s, priority_preemptive_scheduling refPs = some s
          ∧ totalDur s = (refPs.map (·.burst)).sum)) :=
  ⟨⟨by decide, by decide⟩, claim_C9_termination refPs 2 (by decide) (by decide)⟩

theorem dictGet_upsert_same {α : Type} (d : List (String × α)) (k : String) (v : α) :
    dictGet (dictUpsert d k v) k = some v := by
  induction d with
  | nil => simp [dictUpsert, dictGet]
  | cons kv d ih =>
    rw [dictUpsert]
    by_cases h : kv.1 = k
    · simp [h, dictGet]
    · rw [if_neg h, dictGet, if_neg h]
      exact ih

theorem dictGet_upsert_other {α : Type} (d : List (String × α)) (k k2 : String)
    (v : α) (h : ¬ k = k2) :
    dictGet (dictUpsert d k v) k2 = dictGet d k2 := by
  induction d with
  | nil => simp [dictUpsert, dictGet, h]
  | cons kv d ih =>
    rw [dictUpsert]
    by_cases h2 : kv.1 = k
    · rw [if_pos h2, dictGet, if_neg h, dictGet, if_neg (by rw [h2]; exact h)]
    · rw [if_neg h2, dictGet, dictGet]
      by_cases h3 : kv.1 = k2
      · rw [if_pos h3, if_pos h3]
      · rw [if_neg h3, if_neg h3]
        exact ih

theorem dictGet_insertIfAbsent_same {α : Type} (d : List (String × α)) (k : String)
    (v : α) :
    dictGet (dictInsertIfAbsent d k v) k = some ((dictGet d k).getD v) := by
  induction d with
  | nil => simp [dictInsertIfAbsent, dictGet]
  | cons kv d ih =>
    rw [dictInsertIfAbsent]
    by_cases h : kv.1 = k
    · simp [h, dictGet]
    · rw [if_neg h, dictGet, if_neg h, dictGet, if_neg h]
      exact ih

theorem dictGet_insertIfAbsent_other {α : Type} (d : List (String × α))
    (k k2 : String) (v : α) (h : ¬ k = k2) :
    dictGet (dictInsertIfAbsent d k v) k2 = dictGet d k2 := by
  induction d with
  | nil => simp [dictInsertIfAbsent, dictGet, h]
  | cons kv d ih =>
    rw [dictInsertIfAbsent]
    by_cases h2 : kv.1 = k
    · rw [if_pos h2]
    · rw [if_neg h2, dictGet, dictGet]
      by_cases h3 : kv.1 = k2
      · rw [if_pos h3, if_pos h3]
      · rw [if_neg h3, if_neg h3]
        exact ih

theorem mapM_eq_map {α β : Type} (f : α → Option β) (g : α → β) :
    ∀ l : List α, (∀ x ∈ l, f x = some (g x)) → l.mapM f = some (l.map g) := by
  intro l
  induction l with
  | nil => intro _; rfl
  | cons a l ih =>
    intro h
    have ha : f a = some (g a) := h a (List.mem_cons_self a l)
    have hl := ih (fun x hx => h x (List.mem_cons_of_mem a hx))
    rw [List.map_cons, List.mapM_cons, ha, hl]
    rfl

theorem dictGet_map {α β : Type} (g2 : String × α → β) :
    ∀ (l : List (String × α)) (k : String) (v : α), dictGet l k = some v →
    dictGet (l.map (fun kv => (kv.1, g2 kv))) k = some (g2 (k, v)) := by
  intro l
  induction l with
  | nil => intro k v h; simp [dictGet] at h
  | cons kv l ih =>
    intro k v h
    rw [dictGet] at h
    rw [List.map_cons, dictGet]
    by_cases h2 : kv.1 = k
    · rw [if_pos h2] at h ⊢
      injection h with h3
      have hkv : kv = (k, v) := by
        rcases kv with ⟨k1, v1⟩
        simp at h2 h3
        rw [h2, h3]
      rw [hkv]
    · rw [if_neg h2] at h ⊢
      exact ih k v h

theorem mem_dictUpsert {α : Type} (d : List (String × α)) (k : String) (v : α)
    (kv : String × α) (h : kv ∈ dictUpsert d k v) : kv = (k, v) ∨ kv ∈ d := by
  induction d with
  | nil => simpa [dictUpsert] using h
  | cons kv2 d ih =>
    rw [dictUpsert] at h
    by_cases h2 : kv2.1 = k
    · rw [if_pos h2] at h
      rcases List.mem_cons.mp h with h3 | h3
      · exact Or.inl h3
      · exact Or.inr (List.mem_cons_of_mem kv2 h3)
    · rw [if_neg h2] at h
      rcases List.mem_cons.mp h with h3 | h3
      · exact Or.inr (by rw [h3]; exact List.mem_cons_self kv2 d)
      · rcases ih h3 with h4 | h4
        · exact Or.inl h4
        · exact Or.inr (List.mem_cons_of_mem kv2 h4)

theorem mem_foldl_upsert {α : Type} (f : Process → α) :
    ∀ (ps : List Process) (d : List (String × α)) (kv : String × α),
    kv ∈ ps.foldl (fun d q => dictUpsert d q.pid (f q)) d →
    (∃ q ∈ ps, kv = (q.pid, f q)) ∨ kv ∈ d := by
  intro ps
  induction ps with
  | nil => intro d kv h; exact Or.inr h
  | cons p ps ih =>
    intro d kv h
    rw [List.foldl_cons] at h
    rcases ih (dictUpsert d p.pid (f p)) kv h with h2 | h2
    · obtain ⟨q, hq, hkv⟩ := h2
      exact Or.inl ⟨q, List.mem_cons_of_mem p hq, hkv⟩
    · rcases mem_dictUpsert d p.pid (f p) kv h2 with h3 | h3
      · exact Or.inl ⟨p, List.mem_cons_self p ps, h3⟩
      · exact Or.inr h3

theorem dictGet_foldl_upsert {α : Type} (f : Process → α) :
    ∀ (ps : List Process) (d : List (String × α)) (p : Process), p ∈ ps →
    (ps.map (fun q => q.pid)).Nodup →
    dictGet (ps.foldl (fun d q => dictUpsert d q.pid (f q)) d) p.pid = some (f p) := by
  intro ps
  induction ps with
  | nil => intro d p hp; cases hp
  | cons q ps ih =>
    intro d p hp hnd
    rw [List.map_cons, List.nodup_cons] at hnd
    rw [List.foldl_cons]
    rcases List.mem_cons.mp hp with h | h
    · subst h
      -- p.pid does not occur in ps, so the later upserts leave its entry alone
      have hstable : ∀ (ps2 : List Process) (d2 : List (String × α)),
          (∀ q2 ∈ ps2, ¬ q2.pid = p.pid) →
          dictGet (ps2.foldl (fun d q => dictUpsert d q.pid (f q)) d2) p.pid
            = dictGet d2 p.pid := by
        intro ps2
        induction ps2 with
        | nil => intro d2 _; rfl
        | cons r ps2 ih2 =>
          intro d2 hno
          rw [List.foldl_cons, ih2 _ (fun q2 hq2 => hno q2 (List.mem_cons_of_mem r hq2)),
            dictGet_upsert_other d2 r.pid p.pid (f r)
              (hno r (List.mem_cons_self r ps2))]
      rw [hstable ps (dictUpsert d p.pid (f p))
        (by
          intro q2 hq2 hc
          exact hnd.1 (by rw [← hc]; exact List.mem_map_of_mem (fun q => q.pid) hq2))]
      exact dictGet_upsert_same d p.pid (f p)
    · exact ih (dictUpsert d q.pid (f q)) p h hnd.2

theorem cpwtStep_completion (pd : List (String × Nat × Nat)) (st : CState) (seg : Seg) :
    (cpwtStep pd st seg).completion = dictUpsert st.completion seg.1 seg.2.2 := by
  rcases hpd : dictGet pd seg.1 with _ | av <;> simp [cpwtStep, hpd]

theorem cpwtStep_firstStarts (pd : List (String × Nat × Nat)) (st : CState) (seg : Seg) :
    (cpwtStep pd st seg).firstStarts
      = if (dictGet st.firstStarts seg.1).isSome then st.firstStarts
        else dictUpsert st.firstStarts seg.1 seg.2.1 := by
  rcases hpd : dictGet pd seg.1 with _ | av <;> simp [cpwtStep, hpd]

theorem cpwtStep_lastEnd_some (pd : List (String × Nat × Nat)) (st : CState)
    (seg : Seg) (av : Nat × Nat) (hpd : dictGet pd seg.1 = some av) :
    (cpwtStep pd st seg).lastEnd = dictUpsert st.lastEnd seg.1 seg.2.2 := by
  simp [cpwtStep, hpd]

theorem cpwtStep_lastEnd_none (pd : List (String × Nat × Nat)) (st : CState)
    (seg : Seg) (hpd : dictGet pd seg.1 = none) :
    (cpwtStep pd st seg).lastEnd = st.lastEnd := by
  simp [cpwtStep, hpd]

theorem cpwtStep_waiting_first (pd : List (String × Nat × Nat)) (st : CState)
    (seg : Seg) (av : Nat × Nat) (hpd : dictGet pd seg.1 = some av)
    (hw : dictGet st.waiting seg.1 = none) :
    (cpwtStep pd st seg).waiting
      = dictUpsert st.waiting seg.1 (max 0 ((seg.2.1 : Int) - (av.1 : Int))) := by
  simp [cpwtStep, hpd, hw]

theorem cpwtStep_waiting_later (pd : List (String × Nat × Nat)) (st : CState)
    (seg : Seg) (av : Nat × Nat) (wOld : Int) (le0 : Nat)
    (hpd : dictGet pd seg.1 = some av) (hw : dictGet st.waiting seg.1 = some wOld)
    (hle : dictGet st.lastEnd seg.1 = some le0) :
    (cpwtStep pd st seg).waiting
      = dictUpsert st.waiting seg.1 (wOld + ((seg.2.1 : Int) - (le0 : Int))) := by
  simp [cpwtStep, hpd, hw, hle]

theorem cpwtStep_waiting_none (pd : List (String × Nat × Nat)) (st : CState)
    (seg : Seg) (hpd : dictGet pd seg.1 = none) :
    (cpwtStep pd st seg).waiting = st.waiting := by
  simp [cpwtStep, hpd]

theorem cpwt_fold_inv (pd : List (String × Nat × Nat)) (pid : String)
    (av b : Nat) (hpd : dictGet pd pid = some (av, b)) :
    ∀ (sched : Schedule) (st : CState) (w0 : Int) (le0 fs0 : Nat),
    (∀ seg ∈ sched, seg.2.1 ≤ seg.2.2) →
    dictGet st.waiting pid = some w0 →
    dictGet st.lastEnd pid = some le0 →
    dictGet st.completion pid = some le0 →
    dictGet st.firstStarts pid = some fs0 →
    ∃ w1 le1,
      dictGet (sched.foldl (cpwtStep pd) st).waiting pid = some w1
      ∧ dictGet (sched.foldl (cpwtStep pd) st).lastEnd pid = some le1
      ∧ dictGet (sched.foldl (cpwtStep pd) st).completion pid = some le1
      ∧ dictGet (sched.foldl (cpwtStep pd) st).firstStarts pid = some fs0
      ∧ w1 = w0 + ((le1 : Int) - (le0 : Int)) - (sumDurFor pid sched : Int) := by
  intro sched
  induction sched with
  | nil =>
    intro st w0 le0 fs0 _ hw hle hcomp hfs
    exact ⟨w0, le0, hw, hle, hcomp, hfs, by simp [sumDurFor]⟩
  | cons seg sched ih =>
    intro st w0 le0 fs0 hwf hw hle hcomp hfs
    rw [List.foldl_cons]
    have hwfr : ∀ s ∈ sched, s.2.1 ≤ s.2.2 :=
      fun s hs => hwf s (List.mem_cons_of_mem seg hs)
    by_cases hp : seg.1 = pid
    · -- segment belongs to pid: one telescoping step, then the ih
      have hpds : dictGet pd seg.1 = some (av, b) := by rw [hp]; exact hpd
      have hws : dictGet st.waiting seg.1 = some w0 := by rw [hp]; exact hw
      have hles : dictGet st.lastEnd seg.1 = some le0 := by rw [hp]; exact hle
      have hw2 : dictGet (cpwtStep pd st seg).waiting pid
          = some (w0 + ((seg.2.1 : Int) - (le0 : Int))) := by
        rw [cpwtStep_waiting_later pd st seg (av, b) w0 le0 hpds hws hles, hp]
        exact dictGet_upsert_same _ _ _
      have hle2 : dictGet (cpwtStep pd st seg).lastEnd pid = some seg.2.2 := by
        rw [cpwtStep_lastEnd_some pd st seg (av, b) hpds, hp]
        exact dictGet_upsert_same _ _ _
      have hcomp2 : dictGet (cpwtStep pd st seg).completion pid = some seg.2.2 := by
        rw [cpwtStep_completion pd st seg, hp]
        exact dictGet_upsert_same _ _ _
      have hfs2 : dictGet (cpwtStep pd st seg).firstStarts pid = some fs0 := by
        rw [cpwtStep_firstStarts pd st seg]
        split
        · exact hfs
        · rename_i hnone
          rw [hp, hfs] at hnone
          simp at hnone
      obtain ⟨w1, le1, h1, h2, h3, h4, h5⟩ := ih (cpwtStep pd st seg)
        (w0 + ((seg.2.1 : Int) - (le0 : Int))) seg.2.2 fs0 hwfr hw2 hle2 hcomp2 hfs2
      refine ⟨w1, le1, h1, h2, h3, h4, ?_⟩
      rw [h5, sumDurFor_cons, if_pos hp]
      have hseg := hwf seg (List.mem_cons_self seg sched)
      rw [segDur]
      push_cast [Nat.cast_sub hseg]
      ring
    · -- segment belongs to another process: all pid entries are unchanged
      have hw2 : dictGet (cpwtStep pd st seg).waiting pid = some w0 := by
        rcases hpds : dictGet pd seg.1 with _ | av2
        · rw [cpwtStep_waiting_none pd st seg hpds]
          exact hw
        · rcases hws : dictGet st.waiting seg.1 with _ | wOld
          · rw [cpwtStep_waiting_first pd st seg av2 hpds hws,
              dictGet_upsert_other _ _ _ _ hp]
            exact hw
          · rcases hles : dictGet st.lastEnd seg.1 with _ | l0
            · have : (cpwtStep pd st seg).waiting = st.waiting := by
                simp [cpwtStep, hpds, hws, hles]
              rw [this]
              exact hw
            · rw [cpwtStep_waiting_later pd st seg av2 wOld l0 hpds hws hles,
                dictGet_upsert_other _ _ _ _ hp]
              exact hw
      have hle2 : dictGet (cpwtStep pd st seg).lastEnd pid = some le0 := by
        rcases hpds : dictGet pd seg.1 with _ | av2
        · rw [cpwtStep_lastEnd_none pd st seg hpds]
          exact hle
        · rw [cpwtStep_lastEnd_some pd st seg av2 hpds,
            dictGet_upsert_other _ _ _ _ hp]
          exact hle
      have hcomp2 : dictGet (cpwtStep pd st seg).completion pid = some le0 := by
        rw [cpwtStep_completion pd st seg, dictGet_upsert_other _ _ _ _ hp]
        exact hcomp
      have hfs2 : dictGet (cpwtStep pd st seg).firstStarts pid = some fs0 := by
        rw [cpwtStep_firstStarts pd st seg]
        split
        · exact hfs
        · rw [dictGet_upsert_other _ _ _ _ hp]
          exact hfs
      obtain ⟨w1, le1, h1, h2, h3, h4, h5⟩ :=
        ih (cpwtStep pd st seg) w0 le0 fs0 hwfr hw2 hle2 hcomp2 hfs2
      refine ⟨w1, le1, h1, h2, h3, h4, ?_⟩
      rw [h5, sumDurFor_cons, if_neg hp]
      push_cast
      ring

theorem cpwt_fold_start (pd : List (String × Nat × Nat)) (pid : String)
    (av b : Nat) (hpd : dictGet pd pid = some (av, b)) :
    ∀ (sched : Schedule) (st : CState) (fseg : Seg) (frest : List Seg),
    (∀ seg ∈ sched, seg.2.1 ≤ seg.2.2) →
    sched.filter (fun s => s.1 = pid) = fseg :: frest →
    av ≤ fseg.2.1 →
    dictGet st.waiting pid = none →
    dictGet st.lastEnd pid = none →
    ∃ w1 le1 fs1,
      dictGet (sched.foldl (cpwtStep pd) st).waiting pid = some w1
      ∧ dictGet (sched.foldl (cpwtStep pd) st).lastEnd pid = some le1
      ∧ dictGet (sched.foldl (cpwtStep pd) st).completion pid = some le1
      ∧ dictGet (sched.foldl (cpwtStep pd) st).firstStarts pid = some fs1
      ∧ w1 = (le1 : Int) - (av : Int) - (sumDurFor pid sched : Int) := by
  intro sched
  induction sched with
  | nil =>
    intro st fseg frest _ hfil _ _ _
    simp [List.filter_nil] at hfil
  | cons seg sched ih =>
    intro st fseg frest hwf hfil hav hw hle
    rw [List.foldl_cons]
    have hwfr : ∀ s ∈ sched, s.2.1 ≤ s.2.2 :=
      fun s hs => hwf s (List.mem_cons_of_mem seg hs)
    by_cases hp : seg.1 = pid
    · -- first segment of pid: initialise its entries, then run the invariant
      have hfseg : fseg = seg := by
        rw [List.filter_cons, if_pos (by simp [hp])] at hfil
        exact (List.cons.injEq _ _ _ _ ▸ hfil).1.symm
      have hav2 : av ≤ seg.2.1 := by rw [← hfseg]; exact hav
      have hpds : dictGet pd seg.1 = some (av, b) := by rw [hp]; exact hpd
      have hws : dictGet st.waiting seg.1 = none := by rw [hp]; exact hw
      have hmax : max 0 ((seg.2.1 : Int) - (av : Int)) = (seg.2.1 : Int) - (av : Int) := by
        have : (av : Int) ≤ (seg.2.1 : Int) := by exact_mod_cast hav2
        omega
      have hw2 : dictGet (cpwtStep pd st seg).waiting pid
          = some ((seg.2.1 : Int) - (av : Int)) := by
        rw [cpwtStep_waiting_first pd st seg (av, b) hpds hws, hp, hmax]
        exact dictGet_upsert_same _ _ _
      have hle2 : dictGet (cpwtStep pd st seg).lastEnd pid = some seg.2.2 := by
        rw [cpwtStep_lastEnd_some pd st seg (av, b) hpds, hp]
        exact dictGet_upsert_same _ _ _
      have hcomp2 : dictGet (cpwtStep pd st seg).completion pid = some seg.2.2 := by
        rw [cpwtStep_completion pd st seg, hp]
        exact dictGet_upsert_same _ _ _
      have hfs2 : ∃ fs0, dictGet (cpwtStep pd st seg).firstStarts pid = some fs0 := by
        rw [cpwtStep_firstStarts pd st seg]
        split
        · rename_i hsome
          rw [hp] at hsome
          obtain ⟨fs0, hfs0⟩ := Option.isSome_iff_exists.mp hsome
          exact ⟨fs0, hfs0⟩
        · refine ⟨seg.2.1, ?_⟩
          rw [hp]
          exact dictGet_upsert_same _ _ _
      obtain ⟨fs0, hfs0⟩ := hfs2
      obtain ⟨w1, le1, h1, h2, h3, h4, h5⟩ := cpwt_fold_inv pd pid av b hpd sched
        (cpwtStep pd st seg) ((seg.2.1 : Int) - (av : Int)) seg.2.2 fs0
        hwfr hw2 hle2 hcomp2 hfs0
      refine ⟨w1, le1, fs0, h1, h2, h3, h4, ?_⟩
      rw [h5, sumDurFor_cons, if_pos hp]
      have hseg := hwf seg (List.mem_cons_self seg sched)
      rw [segDur]
      push_cast [Nat.cast_sub hseg]
      ring
    · -- a segment of another process: pid entries stay absent
      have hfil2 : sched.filter (fun s => s.1 = pid) = fseg :: frest := by
        rw [List.filter_cons, if_neg (by simp [hp])] at hfil
        exact hfil
      have hw2 : dictGet (cpwtStep pd st seg).waiting pid = none := by
        rcases hpds : dictGet pd seg.1 with _ | av2
        · rw [cpwtStep_waiting_none pd st seg hpds]
          exact hw
        · rcases hws : dictGet st.waiting seg.1 with _ | wOld
          · rw [cpwtStep_waiting_first pd st seg av2 hpds hws,
              dictGet_upsert_other _ _ _ _ hp]
            exact hw
          · rcases hles : dictGet st.lastEnd seg.1 with _ | l0
            · have : (cpwtStep pd st seg).waiting = st.waiting := by
                simp [cpwtStep, hpds, hws, hles]
              rw [this]
              exact hw
            · rw [cpwtStep_waiting_later pd st seg av2 wOld l0 hpds hws hles,
                dictGet_upsert_other _ _ _ _ hp]
              exact hw
      have hle2 : dictGet (cpwtStep pd st seg).lastEnd pid = none := by
        rcases hpds : dictGet pd seg.1 with _ | av2
        · rw [cpwtStep_lastEnd_none pd st seg hpds]
          exact hle
        · rw [cpwtStep_lastEnd_some pd st seg av2 hpds,
            dictGet_upsert_other _ _ _ _ hp]
          exact hle
      obtain ⟨w1, le1, fs1, h1, h2, h3, h4, h5⟩ :=
        ih (cpwtStep pd st seg) fseg frest hwfr hfil2 hav hw2 hle2
      refine ⟨w1, le1, fs1, h1, h2, h3, h4, ?_⟩
      rw [h5, sumDurFor_cons, if_neg hp]
      push_cast
      ring

/-- The process dictionary built on line 173 of the source. -/
def cpwtPd (ps : List Process) : List (String × Nat × Nat) :=
  ps.foldl (fun d p => dictUpsert d p.pid (p.arrival, p.burst)) []

/-- The loop state after the `for pid, start, end in schedule:` loop of
`calculate_preemptive_waiting_time`. -/
def cpwtState (schedule : Schedule) (ps : List Process) : CState :=
  schedule.foldl (cpwtStep (cpwtPd ps)) ⟨[], [], [], []⟩

theorem cpwt_eq (schedule : Schedule) (ps : List Process) :
    calculate_preemptive_waiting_time schedule ps
      = ((cpwtPd ps).mapM (fun kv =>
          (dictGet (cpwtState schedule ps).completion kv.1).map
            (fun e => (kv.1, (e : Int) - (kv.2.1 : Int))))).bind
        (fun turnaround_times =>
        ((cpwtPd ps).mapM (fun kv =>
          (dictGet (cpwtState schedule ps).firstStarts kv.1).map
            (fun s0 => (kv.1, (s0 : Int) - (kv.2.1 : Int))))).bind
        (fun response_times =>
        some ((cpwtState schedule ps).waiting, avgOf (cpwtState schedule ps).waiting,
          turnaround_times, avgOf turnaround_times,
          response_times, avgOf response_times))) := rfl

/-- Counterexample to claim C10 as stated: the timeline [("P1",0,1)] satisfies
all the ordering conditions of the claim, yet with the ProcessSet {P1, P2}
the fragmented-run calculator returns none (a KeyError on the turnaround
comprehension, since P2 never appears in the timeline) instead of yielding
the waiting/turnaround relation for the process P1 that does appear. -/
theorem claim_C10_counterexample :
    (∀ seg ∈ ([("P1", 0, 1)] : Schedule), seg.2.1 ≤ seg.2.2)
    ∧ calculate_preemptive_waiting_time [("P1", 0, 1)]
        [⟨"P1", 0, 1, 1⟩, ⟨"P2", 5, 1, 1⟩] = none :=
  ⟨by decide, rfl⟩

/-- Claim C10 (amended): for a timeline whose segments are well formed
(start ≤ end), in which every process of the set appears and each process's
first segment starts no earlier than its arrival, the fragmented-run
calculator succeeds, and for every process the reported waitingTime equals
turnaroundTime minus the total executed time of that process; if some process
of the set never appears in the timeline the calculator instead fails with a
KeyError (none), even for processes that do appear. -/
theorem claim_C10_fragmented_waiting (schedule : Schedule) (ps : List Process)
    (hnd : (ps.map (fun p => p.pid)).Nodup)
    (hwf : ∀ seg ∈ schedule, seg.2.1 ≤ seg.2.2)
    (happ : ∀ p ∈ ps, schedule.filter (fun s => s.1 = p.pid) ≠ [])
    (hfirst : ∀ p ∈ ps, ∀ s rest,
      schedule.filter (fun s2 => s2.1 = p.pid) = s :: rest → p.arrival ≤ s.2.1) :
    ∃ m, calculate_preemptive_waiting_time schedule ps = some m
      ∧ ∀ p ∈ ps, ∃ w tt, dictGet m.1 p.pid = some w
          ∧ dictGet m.2.2.1 p.pid = some tt
          ∧ w = tt - (sumDurFor p.pid schedule : Int) := by
  have key : ∀ q ∈ ps, ∃ w1 le1 fs1,
      dictGet (cpwtState schedule ps).waiting q.pid = some w1
      ∧ dictGet (cpwtState schedule ps).lastEnd q.pid = some le1
      ∧ dictGet (cpwtState schedule ps).completion q.pid = some le1
      ∧ dictGet (cpwtState schedule ps).firstStarts q.pid = some fs1
      ∧ w1 = (le1 : Int) - (q.arrival : Int) - (sumDurFor q.pid schedule : Int) := by
    intro q hq
    have hpdq : dictGet (cpwtPd ps) q.pid = some (q.arrival, q.burst) :=
      dictGet_foldl_upsert (fun p => (p.arrival, p.burst)) ps [] q hq hnd
    obtain ⟨fseg, frest, hfil⟩ := List.exists_cons_of_ne_nil (happ q hq)
    exact cpwt_fold_start (cpwtPd ps) q.pid q.arrival q.burst hpdq schedule
      ⟨[], [], [], []⟩ fseg frest hwf hfil (hfirst q hq fseg frest hfil) rfl rfl
  have hmapT : (cpwtPd ps).mapM (fun kv =>
      (dictGet (cpwtState schedule ps).completion kv.1).map
        (fun e => (kv.1, (e : Int) - (kv.2.1 : Int))))
      = some ((cpwtPd ps).map (fun kv =>
          (kv.1, ((dictGet (cpwtState schedule ps).completion kv.1).getD 0 : Int)
            - (kv.2.1 : Int)))) := by
    apply mapM_eq_map
    intro kv hkv
    rcases mem_foldl_upsert (fun p => (p.arrival, p.burst)) ps [] kv hkv with h | h
    · obtain ⟨q, hq, hkv2⟩ := h
      obtain ⟨w1, le1, fs1, _, _, hcomp, _, _⟩ := key q hq
      rw [hkv2]
      dsimp only
      rw [hcomp]
      rfl
    · cases h
  have hmapR : (cpwtPd ps).mapM (fun kv =>
      (dictGet (cpwtState schedule ps).firstStarts kv.1).map
        (fun s0 => (kv.1, (s0 : Int) - (kv.2.1 : Int))))
      = some ((cpwtPd ps).map (fun kv =>
          (kv.1, ((dictGet (cpwtState schedule ps).firstStarts kv.1).getD 0 : Int)
            - (kv.2.1 : Int)))) := by
    apply mapM_eq_map
    intro kv hkv
    rcases mem_foldl_upsert (fun p => (p.arrival, p.burst)) ps [] kv hkv with h | h
    · obtain ⟨q, hq, hkv2⟩ := h
      obtain ⟨w1, le1, fs1, _, _, _, hfs, _⟩ := key q hq
      rw [hkv2]
      dsimp only
      rw [hfs]
      rfl
    · cases h
  refine ⟨((cpwtState schedule ps).waiting, avgOf (cpwtState schedule ps).waiting,
    (cpwtPd ps).map (fun kv =>
      (kv.1, ((dictGet (cpwtState schedule ps).completion kv.1).getD 0 : Int)
        - (kv.2.1 : Int))),
    avgOf ((cpwtPd ps).map (fun kv =>
      (kv.1, ((dictGet (cpwtState schedule ps).completion kv.1).getD 0 : Int)
        - (kv.2.1 : Int)))),
    (cpwtPd ps).map (fun kv =>
      (kv.1, ((dictGet (cpwtState schedule ps).firstStarts kv.1).getD 0 : Int)
        - (kv.2.1 : Int))),
    avgOf ((cpwtPd ps).map (fun kv =>
      (kv.1, ((dictGet (cpwtState schedule ps).firstStarts kv.1).getD 0 : Int)
        - (kv.2.1 : Int))))), ?_, ?_⟩
  · rw [cpwt_eq, hmapT, hmapR]
    rfl
  · intro p hp
    obtain ⟨w1, le1, fs1, hw, hle, hcomp, hfs, heq⟩ := key p hp
    have hpdp : dictGet (cpwtPd ps) p.pid = some (p.arrival, p.burst) :=
      dictGet_foldl_upsert (fun q => (q.arrival, q.burst)) ps [] p hp hnd
    have htt := dictGet_map
      (fun kv => ((dictGet (cpwtState schedule ps).completion kv.1).getD 0 : Int)
        - (kv.2.1 : Int)) (cpwtPd ps) p.pid (p.arrival, p.burst) hpdp
    dsimp only at htt
    rw [hcomp] at htt
    refine ⟨w1, (le1 : Int) - (p.arrival : Int), hw, htt, ?_⟩
    rw [heq]

theorem claim_C10_witness :
    ((([⟨"P1", 0, 4, 1⟩, ⟨"P2", 2, 1, 1⟩] : List Process).map
        (fun p => p.pid)).Nodup
      ∧ (∀ seg ∈ ([("P1", 0, 2), ("P2", 2, 3), ("P1", 3, 5)] : Schedule),
          seg.2.1 ≤ seg.2.2))
    ∧ (∃ m, calculate_preemptive_waiting_time
          [("P1", 0, 2), ("P2", 2, 3), ("P1", 3, 5)]
          [⟨"P1", 0, 4, 1⟩, ⟨"P2", 2, 1, 1⟩] = some m
        ∧ ∀ p ∈ ([⟨"P1", 0, 4, 1⟩, ⟨"P2", 2, 1, 1⟩] : List Process),
            ∃ w tt, dictGet m.1 p.pid = some w
              ∧ dictGet m.2.2.1 p.pid = some tt
              ∧ w = tt - (sumDurFor p.pid
                  [("P1", 0, 2), ("P2", 2, 3), ("P1", 3, 5)] : Int)) :=
  ⟨⟨by decide, by decide⟩,
    claim_C10_fragmented_waiting [("P1", 0, 2), ("P2", 2, 3), ("P1", 3, 5)]
      [⟨"P1", 0, 4, 1⟩, ⟨"P2", 2, 1, 1⟩] (by decide) (by decide) (by decide)
      (by
        intro p hp s rest h
        rcases List.mem_cons.mp hp with h1 | h1
        · subst h1
          have h3 : ([("P1", 0, 2), ("P2", 2, 3), ("P1", 3, 5)] : Schedule).filter
              (fun s2 => s2.1 = (⟨"P1", 0, 4, 1⟩ : Process).pid)
              = [("P1", 0, 2), ("P1", 3, 5)] := rfl
          rw [h3] at h
          injection h with ha _
          rw [← ha]
        · rcases List.mem_cons.mp h1 with h2 | h2
          · subst h2
            have h3 : ([("P1", 0, 2), ("P2", 2, 3), ("P1", 3, 5)] : Schedule).filter
                (fun s2 => s2.1 = (⟨"P2", 2, 1, 1⟩ : Process).pid)
                = [("P2", 2, 3)] := rfl
            rw [h3] at h
            injection h with ha _
            rw [← ha]
          · cases h2)⟩
